import Mathlib

/-!
# OSProj3: the bounded request buffer of `request.c`

A shallow embedding of the shared request buffer (`request_buffer_insert`,
`request_buffer_remove`, the three scheduling policies) and of the admission
path (`request_handle`, `request_parse_uri`) of `src/request.c`.

Conventions of the embedding.

* C `int` values are `Int`.  Every intermediate value computed on the buffer
  indices lies between 0 and `2 * buffer_max_size`, which fits `int` for every
  capacity whose array `request_buffer_init` can allocate, so no wrap-around
  is modelled for them; the narrowing of `st_size` to `int` is modelled by
  `to_int32`.
* The global variables live in one record, `Globals`, that is passed and
  returned explicitly.  `buffer` is the array obtained from `malloc`; its
  length is the number of allocated slots.
* A call either returns (`Except.ok`), finds the condition of its wait loop
  true and sleeps on the condition variable (`Halt.blocked`), or performs an
  operation C leaves undefined: a slot outside the array, a remainder by
  zero (`Halt.undefined`).
* `clock_gettime` and `rand` are inputs: the clock reading and the value
  returned by `rand()` are arguments of the operations.
* C strings are lists of characters (without the terminating NUL) that fit
  the arrays they are copied into.
-/

namespace OSProj3

/-! ## Data model -/

/-- The value of `MAXBUF`. -/
def MAXBUF : Nat := 8192

/-- The two fields of `struct timespec` that the code reads. -/
structure timespec where
  tv_sec : Int
  tv_nsec : Int
deriving DecidableEq, Repr

/-- Translation of `timespec_compare` (request.c, lines 16-22). -/
def timespec_compare (a b : timespec) : Int :=
  if a.tv_sec < b.tv_sec then -1
  else if a.tv_sec > b.tv_sec then 1
  else if a.tv_nsec < b.tv_nsec then -1
  else if a.tv_nsec > b.tv_nsec then 1
  else 0

/-- Translation of the struct `request_t` (request.c, lines 23-29). -/
structure request_t where
  conn_fd : Int
  filename : List Char
  filesize : Int
  usage_count : Int
  arrival_time : timespec
deriving DecidableEq, Repr

/-- Why a call does not return normally. -/
inductive Halt where
  | blocked
  | undefined
deriving DecidableEq, Repr

/-- The global variables of request.c that the buffer operations use
(lines 8-9 and 31-34). -/
structure Globals where
  buffer_max_size : Int
  scheduling_algo : Int
  buffer : List request_t
  buffer_size : Int
  buffer_head : Int
  buffer_tail : Int
deriving DecidableEq, Repr

/-! ## Primitive steps -/

/-- C `a % b` on `int`: the remainder of the division truncated toward zero;
undefined when `b` is zero. -/
def c_rem (a b : Int) : Except Halt Int :=
  if b = 0 then Except.error Halt.undefined else Except.ok (Int.tmod a b)

/-- Reading `buffer[i]`: undefined outside the allocated array. -/
def buffer_get (g : Globals) (i : Int) : Except Halt request_t :=
  if 0 ≤ i then
    match g.buffer.get? i.toNat with
    | some r => Except.ok r
    | none => Except.error Halt.undefined
  else Except.error Halt.undefined

/-- Writing `buffer[i] = r`: undefined outside the allocated array. -/
def buffer_put (g : Globals) (i : Int) (r : request_t) : Except Halt Globals :=
  if 0 ≤ i ∧ i.toNat < g.buffer.length then
    Except.ok { g with buffer := g.buffer.set i.toNat r }
  else Except.error Halt.undefined

/-! ## The buffer operations -/

/-- Translation of `request_buffer_init` (lines 42-45): `mem` is the content
of the freshly allocated array, one element per slot; the counters keep their
static initial value 0. -/
def request_buffer_init (buffer_max_size scheduling_algo : Int)
    (mem : List request_t) : Globals :=
  { buffer_max_size := buffer_max_size
    scheduling_algo := scheduling_algo
    buffer := mem
    buffer_size := 0
    buffer_head := 0
    buffer_tail := 0 }

/-- The entry that `request_buffer_insert` writes into its slot (lines 54-58);
`now` is the reading of `clock_gettime`. -/
def new_entry (conn_fd : Int) (filename : List Char) (filesize : Int)
    (now : timespec) : request_t :=
  { conn_fd := conn_fd
    filename := filename
    filesize := filesize
    usage_count := 0
    arrival_time := now }

/-- Translation of `request_buffer_insert` (lines 48-65) as one atomic step
taken under `buffer_lock`. -/
def request_buffer_insert (conn_fd : Int) (filename : List Char) (filesize : Int)
    (now : timespec) (g : Globals) : Except Halt Globals :=
  if g.buffer_size = g.buffer_max_size then Except.error Halt.blocked
  else do
    let g1 ← buffer_put g g.buffer_tail (new_entry conn_fd filename filesize now)
    let tail ← c_rem (g1.buffer_tail + 1) g1.buffer_max_size
    pure { g1 with buffer_tail := tail, buffer_size := g1.buffer_size + 1 }

/-- The body of the SFF loop (lines 77-82) for loop counter `i` and current
candidate `idx`: the new candidate. -/
def sff_body (g : Globals) (idx : Int) (i : Int) : Except Halt Int := do
  let real_idx ← c_rem (g.buffer_head + i) g.buffer_max_size
  let a ← buffer_get g real_idx
  let b ← buffer_get g idx
  if a.filesize < b.filesize ∨
      (a.filesize = b.filesize ∧ timespec_compare a.arrival_time b.arrival_time < 0)
  then pure real_idx
  else pure idx

/-- Value of `idx` after the first `k` iterations (`i = 0 .. k-1`) of the SFF
loop (lines 73 and 76-83). -/
def sff_scan (g : Globals) : Nat → Except Halt Int
  | 0 => Except.ok g.buffer_head
  | k + 1 => do
    let idx ← sff_scan g k
    sff_body g idx k

/-- The slot chosen by `request_buffer_remove` (lines 73-87); `rand` is the
value returned by `rand()`. -/
def select_idx (rand : Int) (g : Globals) : Except Halt Int :=
  if g.scheduling_algo = 1 then sff_scan g g.buffer_size.toNat
  else if g.scheduling_algo = 2 then do
    let random_offset ← c_rem rand g.buffer_size
    c_rem (g.buffer_head + random_offset) g.buffer_max_size
  else Except.ok g.buffer_head

/-- Translation of `request_buffer_remove` (lines 67-101) as one atomic step
taken under `buffer_lock`. -/
def request_buffer_remove (rand : Int) (g : Globals) :
    Except Halt (request_t × Globals) :=
  if g.buffer_size = 0 then Except.error Halt.blocked
  else do
    let idx ← select_idx rand g
    let req ← buffer_get g idx
    let last_idx ← c_rem (g.buffer_tail - 1 + g.buffer_max_size) g.buffer_max_size
    let last ← buffer_get g last_idx
    let g1 ← buffer_put g idx last
    pure (req, { g1 with buffer_tail := last_idx, buffer_size := g1.buffer_size - 1 })

/-! ## Observations and runs -/

/-- The slot holding logical position `i`: `(buffer_head + i) % buffer_max_size`. -/
def logical_slot (g : Globals) (i : Nat) : Option request_t :=
  match c_rem (g.buffer_head + i) g.buffer_max_size with
  | Except.ok j =>
    match buffer_get g j with
    | Except.ok r => some r
    | Except.error _ => none
  | Except.error _ => none

/-- The logical sequence of buffered entries: the `buffer_size` slots
`buffer_head, buffer_head + 1, ...` taken modulo `buffer_max_size`. -/
def logical (g : Globals) : List request_t :=
  (List.range g.buffer_size.toNat).filterMap (logical_slot g)

/-- Runs of the buffer from its initial state, with the entries inserted so
far and the entries returned so far (most recent first). -/
inductive Run : Globals → List request_t → List request_t → Prop
  | init (max algo : Int) (mem : List request_t) :
      1 ≤ max → mem.length = max.toNat →
      Run (request_buffer_init max algo mem) [] []
  | insert (g g1 : Globals) (ins outs : List request_t) (conn_fd : Int)
      (filename : List Char) (filesize : Int) (now : timespec) :
      Run g ins outs →
      request_buffer_insert conn_fd filename filesize now g = Except.ok g1 →
      Run g1 (new_entry conn_fd filename filesize now :: ins) outs
  | remove (g g1 : Globals) (ins outs : List request_t) (rand : Int) (req : request_t) :
      Run g ins outs → 0 ≤ rand →
      request_buffer_remove rand g = Except.ok (req, g1) →
      Run g1 ins (req :: outs)

/-- States reachable from the initial state by completed insert and remove
steps. -/
def Reachable (g : Globals) : Prop := ∃ ins outs, Run g ins outs

/-- The representation invariant of reachable states. -/
def Inv (g : Globals) : Prop :=
  1 ≤ g.buffer_max_size ∧ g.buffer.length = g.buffer_max_size.toNat ∧
  g.buffer_head = 0 ∧ 0 ≤ g.buffer_size ∧ g.buffer_size ≤ g.buffer_max_size ∧
  g.buffer_tail = Int.tmod g.buffer_size g.buffer_max_size

/-- The order the SFF policy serves by: `a` is served no later than `b` when
its `filesize` is smaller, or equal with an `arrival_time` that is not later. -/
def sff_le (a b : request_t) : Prop :=
  a.filesize < b.filesize ∨
    (a.filesize = b.filesize ∧ timespec_compare a.arrival_time b.arrival_time ≤ 0)

deriving instance DecidableEq for Except

/-! ## Concrete data used in the worked examples -/

/-- Content of an array slot that has not been written yet. -/
def slot0 : request_t := ⟨0, [], 0, 0, ⟨0, 0⟩⟩

/-- Entry for `/a.html`, 500 bytes, arrived first. -/
def entryA : request_t := new_entry 4 "/a.html".toList 500 ⟨10, 0⟩

/-- Entry for `/b.html`, 100 bytes, arrived second. -/
def entryB : request_t := new_entry 5 "/b.html".toList 100 ⟨11, 0⟩

/-- Entry for `/c.html`, 300 bytes, arrived third. -/
def entryC : request_t := new_entry 6 "/c.html".toList 300 ⟨12, 0⟩

/-- The state with the given capacity, policy and array content whose first
`size` slots are in use (`buffer_head = 0`, `buffer_tail = size % max`). -/
def state_of (max algo : Int) (buffer : List request_t) (size : Int) : Globals :=
  { buffer_max_size := max
    scheduling_algo := algo
    buffer := buffer
    buffer_size := size
    buffer_head := 0
    buffer_tail := Int.tmod size max }

/-! ## Sequences of calls -/

/-- The arguments of one `request_buffer_insert` call together with the clock
reading taken inside it. -/
structure insert_call where
  conn_fd : Int
  filename : List Char
  filesize : Int
  now : timespec
deriving DecidableEq, Repr

/-- The entry that the call writes. -/
def insert_call.entry (c : insert_call) : request_t :=
  new_entry c.conn_fd c.filename c.filesize c.now

/-- Successive `request_buffer_insert` calls with no remove in between. -/
def insert_many : List insert_call → Globals → Except Halt Globals
  | [], g => Except.ok g
  | c :: cs, g => do
    let g1 ← request_buffer_insert c.conn_fd c.filename c.filesize c.now g
    insert_many cs g1

/-- Successive `request_buffer_remove` calls with no insert in between, one
per element of `rands` (the value `rand()` would return in that call): the
entries returned, in order, and the final state. -/
def remove_many : List Int → Globals → Except Halt (List request_t × Globals)
  | [], g => Except.ok ([], g)
  | r :: rs, g => do
    let (req, g1) ← request_buffer_remove r g
    let (reqs, g2) ← remove_many rs g1
    pure (req :: reqs, g2)

/-! ## The random source -/

/-- The value of `RAND_MAX` in `stdlib.h` (glibc), `2^31 - 1`: `rand()` returns
a value in `0 .. RAND_MAX`. -/
def RAND_MAX : Nat := 2147483647

/-- The number of values `r` in `0 .. RAND_MAX` of `rand()` for which
`request_buffer_remove` selects slot `k` in state `g`. -/
def selection_count (g : Globals) (k : Nat) : Nat :=
  Nat.count (fun r : Nat => select_idx (r : Int) g = Except.ok (k : Int)) (RAND_MAX + 1)

/-! ## The admission path -/

/-- The fields of `struct stat` that `request_handle` reads. -/
structure stat_buf where
  st_mode : Nat
  st_size : Int
deriving DecidableEq, Repr

/-- The file-type mask `S_IFMT` of `sys/stat.h`. -/
def S_IFMT : Nat := 0o170000

/-- The file type `S_IFREG` (regular file) of `sys/stat.h`. -/
def S_IFREG : Nat := 0o100000

/-- The owner-read permission bit `S_IRUSR` of `sys/stat.h`. -/
def S_IRUSR : Nat := 0o400

/-- The macro `S_ISREG(m)` of `sys/stat.h`. -/
def S_ISREG (m : Nat) : Bool := (m &&& S_IFMT) == S_IFREG

/-- Conversion of a value to `int` (32 bits, two's complement), as happens to
`sbuf.st_size` when it is passed to the `int filesize` parameter. -/
def to_int32 (x : Int) : Int := (x + 2147483648) % 4294967296 - 2147483648

/-- Whether `strstr(haystack, needle)` is not `NULL`: `needle` occurs in
`haystack` as a contiguous substring. -/
def strstr (haystack needle : List Char) : Bool := decide (needle <:+: haystack)

/-- Result of `index(s, c)`: the offset of the first occurrence of `c`, if any. -/
def index (s : List Char) (c : Char) : Option Nat :=
  if c ∈ s then some (s.indexOf c) else none

/-- Result of `strcasecmp(a, b)` as far as the code uses it: 0 exactly when the
two strings are equal after mapping `A-Z` to `a-z`. -/
def strcasecmp (a b : List Char) : Int :=
  if a.map Char.toLower = b.map Char.toLower then 0 else 1

/-- Translation of `request_parse_uri` (lines 153-176): the return value, the
content of `filename` and the content of `cgiargs`.  `uri` is a token stored by
`sscanf("%s")`, hence not empty; its last character is `uri[strlen(uri)-1]`. -/
def request_parse_uri (uri : List Char) : Int × List Char × List Char :=
  if !strstr uri "cgi".toList then
    if uri.getLast? = some '/' then (1, ('.' :: uri) ++ "index.html".toList, [])
    else (1, '.' :: uri, [])
  else
    match index uri '?' with
    | some p => (0, '.' :: uri.take p, uri.drop (p + 1))
    | none => (0, '.' :: uri, [])

/-- What `request_handle` does with a request: it either calls `request_error`
(and, when `closed`, `close_or_die` after it), or calls `request_buffer_insert`
with the given arguments. -/
inductive handled where
  | error (cause : List Char) (errnum shortmsg longmsg : String) (closed : Bool)
  | enqueue (conn_fd : Int) (filename : List Char) (filesize : Int)
deriving DecidableEq, Repr

/-- Translation of `request_handle` (lines 247-294).  `method` and `uri` are the
first two tokens that `sscanf` reads from the request line; `stat` gives the
result of the `stat` system call on a filename (`none` when it fails).  Reading
the request line and the headers is taken to succeed. -/
def request_handle (fd : Int) (method uri : List Char)
    (stat : List Char → Option stat_buf) : handled :=
  if strcasecmp method "GET".toList ≠ 0 then
    handled.error method "501" "Not Implemented" "server does not implement this method" false
  else
    let parsed := request_parse_uri uri
    let is_static := parsed.1
    let filename := parsed.2.1
    match stat filename with
    | none =>
      handled.error filename "404" "Not found" "server could not find this file" false
    | some sbuf =>
      if is_static ≠ 0 then
        if !S_ISREG sbuf.st_mode || (S_IRUSR &&& sbuf.st_mode) == 0 then
          handled.error filename "403" "Forbidden" "server could not read this file" false
        else if strstr filename "..".toList then
          handled.error filename "403" "Forbidden" "directory traversal attempt detected" true
        else handled.enqueue fd filename (to_int32 sbuf.st_size)
      else
        handled.error filename "501" "Not Implemented"
          "server does not serve dynamic content request" false

/-! ## Arrival order of the surviving entries -/

/-- The most recently inserted entry that is still buffered, given the entries
inserted so far, most recent first (as `Run` records them). -/
def most_recent_surviving (ins : List request_t) (g : Globals) : Option request_t :=
  ins.find? (fun e => decide (e ∈ logical g))

/-! ## A file of 2 GiB -/

/-- A `stat` that succeeds on every name with a regular, owner-readable file of
`2^31` bytes. -/
def stat_2GiB (_ : List Char) : Option stat_buf := some ⟨0o100644, 2147483648⟩

/-! ## Auxiliary facts -/

theorem c_rem_of_lt {a b : Int} (h0 : 0 ≤ a) (h1 : a < b) : c_rem a b = Except.ok a := by
  unfold c_rem
  rw [if_neg (by omega), Int.tmod_eq_emod h0 (by omega), Int.emod_eq_of_lt h0 h1]

theorem buffer_get_of_lt (g : Globals) (k : Nat) (h : k < g.buffer.length) :
    buffer_get g (k : Int) = Except.ok g.buffer[k] := by
  unfold buffer_get
  simp [List.getElem?_eq_getElem h]

theorem buffer_put_of_lt (g : Globals) (k : Nat) (r : request_t) (h : k < g.buffer.length) :
    buffer_put g (k : Int) r = Except.ok { g with buffer := g.buffer.set k r } := by
  unfold buffer_put
  simp [h]

theorem Inv.nat {g : Globals} (h : Inv g) :
    ∃ n m : Nat, g.buffer_size = n ∧ g.buffer_max_size = m ∧ 1 ≤ m ∧ n ≤ m ∧
      g.buffer.length = m ∧ g.buffer_head = 0 ∧ g.buffer_tail = ((n % m : Nat) : Int) := by
  obtain ⟨h1, h2, h3, h4, h5, h6⟩ := h
  refine ⟨g.buffer_size.toNat, g.buffer_max_size.toNat, ?_, ?_, ?_, ?_, h2, h3, ?_⟩
  · omega
  · omega
  · omega
  · omega
  · rw [h6, Int.tmod_eq_emod h4 (by omega)]
    push_cast
    rw [Int.toNat_of_nonneg h4, Int.toNat_of_nonneg (by omega)]

theorem insert_spec {g : Globals} (h : Inv g) (hne : g.buffer_size ≠ g.buffer_max_size)
    (conn_fd : Int) (filename : List Char) (filesize : Int) (now : timespec) :
    request_buffer_insert conn_fd filename filesize now g =
      Except.ok { g with
        buffer := g.buffer.set g.buffer_size.toNat (new_entry conn_fd filename filesize now)
        buffer_tail := Int.tmod (g.buffer_size + 1) g.buffer_max_size
        buffer_size := g.buffer_size + 1 } := by
  obtain ⟨n, m, hn, hm, h1, h2, h3, h4, h5⟩ := h.nat
  have hlt : n < m := by omega
  unfold request_buffer_insert
  rw [if_neg hne, h5, Nat.mod_eq_of_lt hlt, buffer_put_of_lt g n _ (by omega)]
  simp only [bind, Except.bind, pure, Except.pure]
  rw [hm, hn]
  have : c_rem ((n : Int) + 1) (m : Int) = Except.ok (Int.tmod ((n : Int) + 1) m) := by
    unfold c_rem; rw [if_neg (by omega)]
  simp [this, h5, Nat.mod_eq_of_lt hlt]

theorem buffer_get_of_get? (g : Globals) (k : Nat) (r : request_t) (h : g.buffer[k]? = some r) :
    buffer_get g (k : Int) = Except.ok r := by
  unfold buffer_get
  simp [h]

theorem take_succ_perm {α : Type} (l : List α) (n : Nat) (x : α) (h : l[n]? = some x) :
    (l.take (n + 1)).Perm (x :: l.take n) := by
  rw [List.take_succ, h]
  simp

theorem take_set_perm {α : Type} (l : List α) (k n : Nat) (a x : α)
    (hk : l[k]? = some a) (hn : l[n]? = some x) (hkn : k ≤ n) :
    (l.take (n + 1)).Perm (a :: (l.set k x).take n) := by
  induction l generalizing k n with
  | nil => simp at hk
  | cons b l ih =>
    cases k with
    | zero =>
      simp at hk
      subst hk
      cases n with
      | zero => simp
      | succ n =>
        simp at hn
        simpa using take_succ_perm l n x hn
    | succ k =>
      cases n with
      | zero => omega
      | succ n =>
        simp at hk hn
        have := ih k n hk hn (by omega)
        simp only [List.take_succ_cons, List.set_cons_succ]
        exact (List.Perm.cons b this).trans (List.Perm.swap a b _)

theorem range_filterMap_get? {α : Type} (l : List α) (n : Nat) (h : n ≤ l.length) :
    (List.range n).filterMap (fun i => l[i]?) = l.take n := by
  induction n with
  | zero => simp
  | succ n ih =>
    rw [List.range_succ, List.filterMap_append, ih (by omega), List.take_succ]
    simp [List.getElem?_eq_getElem (show n < l.length by omega)]

theorem logical_slot_of_lt {g : Globals} (h : Inv g) (i : Nat) (hi : (i : Int) < g.buffer_size) :
    logical_slot g i = g.buffer[i]? := by
  obtain ⟨n, m, hn, hm, h1, h2, h3, h4, h5⟩ := h.nat
  have hil : i < g.buffer.length := by omega
  unfold logical_slot
  rw [h4, hm, Int.zero_add, c_rem_of_lt (by omega) (by omega)]
  simp [buffer_get_of_lt g i hil, List.getElem?_eq_getElem hil]

theorem logical_eq_take {g : Globals} (h : Inv g) :
    logical g = g.buffer.take g.buffer_size.toNat := by
  obtain ⟨n, m, hn, hm, h1, h2, h3, h4, h5⟩ := h.nat
  unfold logical
  rw [← range_filterMap_get? g.buffer _ (by omega)]
  apply List.filterMap_congr
  intro i hi
  rw [List.mem_range] at hi
  exact logical_slot_of_lt h i (by omega)

theorem timespec_compare_lt (a b : timespec) :
    timespec_compare a b < 0 ↔
      a.tv_sec < b.tv_sec ∨ (a.tv_sec = b.tv_sec ∧ a.tv_nsec < b.tv_nsec) := by
  unfold timespec_compare
  split_ifs <;> omega

theorem timespec_compare_le (a b : timespec) :
    timespec_compare a b ≤ 0 ↔
      a.tv_sec < b.tv_sec ∨ (a.tv_sec = b.tv_sec ∧ a.tv_nsec ≤ b.tv_nsec) := by
  unfold timespec_compare
  split_ifs <;> omega

theorem sff_le_refl (a : request_t) : sff_le a a := by
  unfold sff_le
  rw [timespec_compare_le]
  omega

theorem sff_le_trans {a b c : request_t} (h1 : sff_le a b) (h2 : sff_le b c) : sff_le a c := by
  unfold sff_le at *
  rw [timespec_compare_le] at *
  omega

theorem sff_le_of_before {a b : request_t}
    (h : a.filesize < b.filesize ∨
      (a.filesize = b.filesize ∧ timespec_compare a.arrival_time b.arrival_time < 0)) :
    sff_le a b := by
  unfold sff_le
  rw [timespec_compare_lt] at h
  rw [timespec_compare_le]
  omega

theorem sff_le_of_not_before {a b : request_t}
    (h : ¬ (b.filesize < a.filesize ∨
      (b.filesize = a.filesize ∧ timespec_compare b.arrival_time a.arrival_time < 0))) :
    sff_le a b := by
  unfold sff_le
  rw [timespec_compare_lt] at h
  rw [timespec_compare_le]
  omega

theorem sff_scan_spec {g : Globals} (h : Inv g) (hne : g.buffer_size ≠ 0) (k : Nat)
    (hk : (k : Int) ≤ g.buffer_size) :
    ∃ j : Nat, (j : Int) < g.buffer_size ∧ sff_scan g k = Except.ok (j : Int) ∧
      ∃ a, g.buffer[j]? = some a ∧ ∀ i < k, ∀ b, g.buffer[i]? = some b → sff_le a b := by
  obtain ⟨n, m, hn, hm, h1, h2, h3, h4, h5⟩ := h.nat
  induction k with
  | zero =>
    have h0 : 0 < g.buffer.length := by omega
    refine ⟨0, by omega, by simp [sff_scan, h4], g.buffer[0], ?_, ?_⟩
    · exact List.getElem?_eq_getElem _
    · intro i hi; omega
  | succ k ih =>
    obtain ⟨j, hj, hscan, a, ha, hmin⟩ := ih (by omega)
    have hkl : k < g.buffer.length := by omega
    have hgetk := buffer_get_of_lt g k hkl
    have hgetj := buffer_get_of_get? g j a ha
    have hrem : c_rem (g.buffer_head + (k : Int)) g.buffer_max_size = Except.ok (k : Int) := by
      rw [h4, Int.zero_add]; exact c_rem_of_lt (by omega) (by omega)
    by_cases hc : g.buffer[k].filesize < a.filesize ∨
        (g.buffer[k].filesize = a.filesize ∧
          timespec_compare g.buffer[k].arrival_time a.arrival_time < 0)
    · refine ⟨k, by omega, ?_, g.buffer[k], List.getElem?_eq_getElem hkl, ?_⟩
      · simp only [sff_scan, hscan, sff_body, bind, Except.bind, hrem, hgetk, hgetj]
        rw [if_pos hc]; rfl
      · intro i hi b hb
        rcases Nat.lt_succ_iff_lt_or_eq.mp hi with hlt | heq
        · exact sff_le_trans (sff_le_of_before hc) (hmin i hlt b hb)
        · subst heq
          rw [List.getElem?_eq_getElem hkl] at hb
          cases hb
          exact sff_le_refl _
    · refine ⟨j, hj, ?_, a, ha, ?_⟩
      · simp only [sff_scan, hscan, sff_body, bind, Except.bind, hrem, hgetk, hgetj]
        rw [if_neg hc]; rfl
      · intro i hi b hb
        rcases Nat.lt_succ_iff_lt_or_eq.mp hi with hlt | heq
        · exact hmin i hlt b hb
        · subst heq
          rw [List.getElem?_eq_getElem hkl] at hb
          cases hb
          exact sff_le_of_not_before hc

theorem select_idx_spec {g : Globals} (h : Inv g) (hne : g.buffer_size ≠ 0) (rand : Int)
    (hr : 0 ≤ rand) :
    ∃ j : Nat, (j : Int) < g.buffer_size ∧ select_idx rand g = Except.ok (j : Int) ∧
      (g.scheduling_algo = 1 →
        ∃ a, g.buffer[j]? = some a ∧ ∀ b ∈ g.buffer.take g.buffer_size.toNat, sff_le a b) ∧
      (g.scheduling_algo = 2 → (j : Int) = rand % g.buffer_size) ∧
      (g.scheduling_algo ≠ 1 → g.scheduling_algo ≠ 2 → j = 0) := by
  obtain ⟨n, m, hn, hm, h1, h2, h3, h4, h5⟩ := h.nat
  by_cases a1 : g.scheduling_algo = 1
  · obtain ⟨j, hj, hscan, a, ha, hmin⟩ := sff_scan_spec h hne g.buffer_size.toNat (by omega)
    refine ⟨j, hj, by simp [select_idx, a1, hscan], ?_, ?_, ?_⟩
    · intro _
      refine ⟨a, ha, ?_⟩
      intro b hb
      obtain ⟨i, hi, hib⟩ := List.getElem_of_mem hb
      rw [List.length_take] at hi
      rw [List.getElem_take] at hib
      exact hmin i (by omega) b (by rw [← hib]; exact List.getElem?_eq_getElem _)
    · intro a2; omega
    · intro c; exact absurd a1 c
  · by_cases a2 : g.scheduling_algo = 2
    · have hpos : 0 < g.buffer_size := by omega
      have hlt := Int.emod_lt_of_pos rand hpos
      have hnn := Int.emod_nonneg rand (show g.buffer_size ≠ 0 by omega)
      refine ⟨(rand % g.buffer_size).toNat, by omega, ?_, ?_, ?_, ?_⟩
      · have e1 : c_rem rand g.buffer_size = Except.ok (rand % g.buffer_size) := by
          unfold c_rem; rw [if_neg hne, Int.tmod_eq_emod hr (by omega)]
        have e2 : c_rem (g.buffer_head + rand % g.buffer_size) g.buffer_max_size =
            Except.ok (rand % g.buffer_size) := by
          rw [h4, Int.zero_add]; exact c_rem_of_lt hnn (by omega)
        simp only [select_idx, if_neg a1, if_pos a2, bind, Except.bind, e1, e2]
        rw [Int.toNat_of_nonneg hnn]
      · intro c; exact absurd c a1
      · intro _; exact Int.toNat_of_nonneg hnn
      · intro _ c; exact absurd a2 c
    · refine ⟨0, by omega, by simp [select_idx, a1, a2, h4], ?_, ?_, ?_⟩
      · intro c; exact absurd c a1
      · intro c; exact absurd c a2
      · intro _ _; rfl

theorem remove_spec {g : Globals} (h : Inv g) (rand : Int) (j : Nat)
    (hj : (j : Int) < g.buffer_size) (hsel : select_idx rand g = Except.ok (j : Int)) :
    ∃ req last, g.buffer[j]? = some req ∧
      g.buffer[(g.buffer_size - 1).toNat]? = some last ∧
      request_buffer_remove rand g = Except.ok (req,
        { g with
          buffer := g.buffer.set j last
          buffer_tail := g.buffer_size - 1
          buffer_size := g.buffer_size - 1 }) := by
  obtain ⟨n, m, hn, hm, h1, h2, h3, h4, h5⟩ := h.nat
  have hjl : j < g.buffer.length := by omega
  have hll : n - 1 < g.buffer.length := by omega
  have hne : g.buffer_size ≠ 0 := by omega
  have hcast : ((n - 1 : Nat) : Int) = g.buffer_size - 1 := by omega
  have hlast : c_rem (g.buffer_tail - 1 + g.buffer_max_size) g.buffer_max_size =
      Except.ok ((n - 1 : Nat) : Int) := by
    unfold c_rem
    rw [if_neg (by omega), h5, hm]
    congr 1
    rw [Int.tmod_eq_emod (by omega) (by omega)]
    rcases Nat.lt_or_ge n m with hlt | hge
    · rw [Nat.mod_eq_of_lt hlt]
      have : ((n : Int) - 1 + m) = ((n - 1 : Nat) : Int) + m * 1 := by omega
      rw [this, Int.add_mul_emod_self_left]
      exact Int.emod_eq_of_lt (by omega) (by omega)
    · have hnm : n = m := by omega
      subst hnm
      rw [Nat.mod_self]
      have : ((0 : Nat) : Int) - 1 + (n : Int) = ((n - 1 : Nat) : Int) := by omega
      rw [this]
      exact Int.emod_eq_of_lt (by omega) (by omega)
  refine ⟨g.buffer[j], g.buffer[n - 1], List.getElem?_eq_getElem hjl, ?_, ?_⟩
  · rw [← hcast, Int.toNat_ofNat]; exact List.getElem?_eq_getElem hll
  · unfold request_buffer_remove
    rw [if_neg hne]
    have hgl : buffer_get g (g.buffer_size - 1) = Except.ok g.buffer[n - 1] := by
      rw [← hcast]; exact buffer_get_of_lt g (n - 1) hll
    rw [hcast] at hlast
    simp only [bind, Except.bind, hsel, buffer_get_of_lt g j hjl, hlast, hgl,
      buffer_put_of_lt g j _ hjl, pure, Except.pure]

theorem take_set_self {α : Type} (l : List α) (n : Nat) (x : α) :
    (l.set n x).take n = l.take n := by
  induction l generalizing n with
  | nil => simp
  | cons b l ih =>
    cases n with
    | zero => simp
    | succ n => simp [ih]

theorem init_inv (max algo : Int) (mem : List request_t) (h1 : 1 ≤ max)
    (h2 : mem.length = max.toNat) : Inv (request_buffer_init max algo mem) := by
  refine ⟨h1, h2, rfl, le_refl _, ?_, ?_⟩
  · show (0 : Int) ≤ max
    omega
  · show (0 : Int) = Int.tmod 0 max
    simp

theorem insert_inv {g g1 : Globals} (h : Inv g) (conn_fd : Int) (filename : List Char)
    (filesize : Int) (now : timespec)
    (hstep : request_buffer_insert conn_fd filename filesize now g = Except.ok g1) :
    g.buffer_size ≠ g.buffer_max_size ∧ Inv g1 ∧
      g1 = { g with
        buffer := g.buffer.set g.buffer_size.toNat (new_entry conn_fd filename filesize now)
        buffer_tail := Int.tmod (g.buffer_size + 1) g.buffer_max_size
        buffer_size := g.buffer_size + 1 } := by
  have hne : g.buffer_size ≠ g.buffer_max_size := by
    intro c
    simp [request_buffer_insert, c] at hstep
  rw [insert_spec h hne] at hstep
  cases hstep
  obtain ⟨h1, h2, h3, h4, h5, h6⟩ := h
  refine ⟨hne, ⟨h1, ?_, h3, ?_, ?_, rfl⟩, rfl⟩
  · simpa using h2
  · show (0 : Int) ≤ g.buffer_size + 1
    omega
  · show g.buffer_size + 1 ≤ g.buffer_max_size
    omega

theorem remove_inv {g g1 : Globals} (h : Inv g) (rand : Int) (hr : 0 ≤ rand) (req : request_t)
    (hstep : request_buffer_remove rand g = Except.ok (req, g1)) :
    g.buffer_size ≠ 0 ∧ Inv g1 ∧ g1.buffer_size = g.buffer_size - 1 ∧
      g1.scheduling_algo = g.scheduling_algo ∧
      ∃ (j : Nat) (last : request_t), (j : Int) < g.buffer_size ∧
        select_idx rand g = Except.ok (j : Int) ∧ g.buffer[j]? = some req ∧
        g.buffer[(g.buffer_size - 1).toNat]? = some last ∧
        g1.buffer = g.buffer.set j last := by
  have hne : g.buffer_size ≠ 0 := by
    intro c
    simp [request_buffer_remove, c] at hstep
  obtain ⟨j, hj, hsel, -⟩ := select_idx_spec h hne rand hr
  obtain ⟨req1, last, hreq, hlast, heq⟩ := remove_spec h rand j hj hsel
  rw [heq] at hstep
  cases hstep
  obtain ⟨h1, h2, h3, h4, h5, h6⟩ := h
  refine ⟨hne, ⟨h1, ?_, h3, ?_, ?_, ?_⟩, rfl, rfl, j, last, hj, hsel, hreq, hlast, rfl⟩
  · simpa using h2
  · show (0 : Int) ≤ g.buffer_size - 1
    omega
  · show g.buffer_size - 1 ≤ g.buffer_max_size
    omega
  · show g.buffer_size - 1 = Int.tmod (g.buffer_size - 1) g.buffer_max_size
    rw [Int.tmod_eq_emod (by omega) (by omega)]
    exact (Int.emod_eq_of_lt (by omega) (by omega)).symm

theorem Run.inv {g : Globals} {ins outs : List request_t} (h : Run g ins outs) : Inv g := by
  induction h with
  | init max algo mem h1 h2 => exact init_inv max algo mem h1 h2
  | insert g g1 ins outs conn_fd filename filesize now _ hstep ih =>
    exact (insert_inv ih conn_fd filename filesize now hstep).2.1
  | remove g g1 ins outs rand req _ hr hstep ih =>
    exact (remove_inv ih rand hr req hstep).2.1

theorem insert_logical {g g1 : Globals} (h : Inv g) (conn_fd : Int) (filename : List Char)
    (filesize : Int) (now : timespec)
    (hstep : request_buffer_insert conn_fd filename filesize now g = Except.ok g1) :
    logical g1 = logical g ++ [new_entry conn_fd filename filesize now] := by
  obtain ⟨hne, hinv1, heq⟩ := insert_inv h conn_fd filename filesize now hstep
  obtain ⟨n, m, hn, hm, h1, h2, h3, h4, h5⟩ := h.nat
  rw [logical_eq_take hinv1, logical_eq_take h, heq]
  simp only
  have e1 : (g.buffer_size + 1).toNat = n + 1 := by omega
  have e2 : g.buffer_size.toNat = n := by omega
  rw [e1, e2, List.take_succ, take_set_self]
  simp [show n < g.buffer.length by omega]

theorem remove_logical {g g1 : Globals} (h : Inv g) (rand : Int) (hr : 0 ≤ rand)
    (req : request_t) (hstep : request_buffer_remove rand g = Except.ok (req, g1)) :
    req ∈ logical g ∧ (logical g).Perm (req :: logical g1) := by
  obtain ⟨hne, hinv1, hsz, -, j, last, hj, hsel, hreq, hlast, hbuf⟩ := remove_inv h rand hr req hstep
  obtain ⟨n, m, hn, hm, h1, h2, h3, h4, h5⟩ := h.nat
  rw [logical_eq_take hinv1, logical_eq_take h, hsz, hbuf]
  have e1 : g.buffer_size.toNat = (g.buffer_size - 1).toNat + 1 := by omega
  have hp := take_set_perm g.buffer j (g.buffer_size - 1).toNat req last hreq hlast (by omega)
  rw [← e1] at hp
  exact ⟨hp.symm.subset (List.mem_cons_self _ _), hp⟩

theorem run_conservation {g : Globals} {ins outs : List request_t} (h : Run g ins outs) :
    ins.Perm (outs ++ logical g) := by
  induction h with
  | init max algo mem h1 h2 => simp [logical, request_buffer_init]
  | insert g g1 ins outs conn_fd filename filesize now hrun hstep ih =>
    rw [insert_logical hrun.inv conn_fd filename filesize now hstep, ← List.append_assoc]
    exact (List.Perm.cons _ ih).trans (List.perm_append_singleton _ _).symm
  | remove g g1 ins outs rand req hrun hr hstep ih =>
    have hp := (remove_logical hrun.inv rand hr req hstep).2
    refine ih.trans ((List.Perm.append_left outs hp).trans ?_)
    simp

theorem remove_returns {g : Globals} (h : Inv g) (hne : g.buffer_size ≠ 0) (rand : Int)
    (hr : 0 ≤ rand) : ∃ req g1, request_buffer_remove rand g = Except.ok (req, g1) := by
  obtain ⟨j, hj, hsel, -⟩ := select_idx_spec h hne rand hr
  obtain ⟨req, last, -, -, heq⟩ := remove_spec h rand j hj hsel
  exact ⟨req, _, heq⟩

/-- Capacity 2, policy `algo`: after inserting `/a.html` and `/b.html`. -/
theorem run_AB (algo : Int) : Run (state_of 2 algo [entryA, entryB] 2) [entryB, entryA] [] :=
  Run.insert (state_of 2 algo [entryA, slot0] 1) _ _ _ 5 "/b.html".toList 100 ⟨11, 0⟩
    (Run.insert (request_buffer_init 2 algo [slot0, slot0]) _ _ _ 4 "/a.html".toList 500 ⟨10, 0⟩
      (Run.init 2 algo [slot0, slot0] (by decide) (by decide)) (by rfl))
    (by rfl)

/-- Capacity 3, policy `algo`: after inserting `/a.html`, `/b.html`, `/c.html`. -/
theorem run_ABC (algo : Int) :
    Run (state_of 3 algo [entryA, entryB, entryC] 3) [entryC, entryB, entryA] [] :=
  Run.insert (state_of 3 algo [entryA, entryB, slot0] 2) _ _ _ 6 "/c.html".toList 300 ⟨12, 0⟩
    (Run.insert (state_of 3 algo [entryA, slot0, slot0] 1) _ _ _ 5 "/b.html".toList 100 ⟨11, 0⟩
      (Run.insert (request_buffer_init 3 algo [slot0, slot0, slot0]) _ _ _ 4 "/a.html".toList
        500 ⟨10, 0⟩ (Run.init 3 algo [slot0, slot0, slot0] (by decide) (by decide)) (by rfl))
      (by rfl))
    (by rfl)

/-! ## C1: capacity invariant -/

/-- C1: in every state reachable from the empty buffer with `buffer_max_size ≥ 1` by
completed `request_buffer_insert` and `request_buffer_remove` steps, under any policy,
`0 ≤ buffer_size ≤ buffer_max_size`. -/
theorem capacity_invariant (g : Globals) (h : Reachable g) :
    0 ≤ g.buffer_size ∧ g.buffer_size ≤ g.buffer_max_size := by
  obtain ⟨ins, outs, hrun⟩ := h
  exact ⟨hrun.inv.2.2.2.1, hrun.inv.2.2.2.2.1⟩

/-- Witness of C1: the full buffer of capacity 2 reached by two inserts. -/
theorem capacity_invariant_witness :
    Reachable (state_of 2 1 [entryA, entryB] 2) ∧
      (0 ≤ (state_of 2 1 [entryA, entryB] 2).buffer_size ∧
        (state_of 2 1 [entryA, entryB] 2).buffer_size ≤
          (state_of 2 1 [entryA, entryB] 2).buffer_max_size) :=
  ⟨⟨_, _, run_AB 1⟩, capacity_invariant _ ⟨_, _, run_AB 1⟩⟩

/-! ## C2: no lost or duplicated work -/

/-- C2: in every reachable state and for every policy and every non-negative value of
`rand()`, a remove on a non-empty buffer returns; the entry a remove returns is buffered
and the multiset of buffered entries afterwards is the previous one minus that entry; an
insert on a non-full buffer returns and adds exactly the new entry; and over the whole
run the multiset of inserted entries is the multiset of returned entries plus the
entries still buffered. -/
theorem no_lost_or_duplicated_work (g : Globals) (ins outs : List request_t)
    (h : Run g ins outs) :
    (∀ rand : Int, 0 ≤ rand → g.buffer_size ≠ 0 →
      ∃ req g1, request_buffer_remove rand g = Except.ok (req, g1)) ∧
    (∀ (rand : Int) (req : request_t) (g1 : Globals), 0 ≤ rand →
      request_buffer_remove rand g = Except.ok (req, g1) →
      req ∈ logical g ∧
        (↑(logical g1) : Multiset request_t) = (↑(logical g) : Multiset request_t).erase req) ∧
    (∀ (conn_fd : Int) (filename : List Char) (filesize : Int) (now : timespec),
      g.buffer_size ≠ g.buffer_max_size →
      ∃ g1, request_buffer_insert conn_fd filename filesize now g = Except.ok g1) ∧
    (∀ (conn_fd : Int) (filename : List Char) (filesize : Int) (now : timespec) (g1 : Globals),
      request_buffer_insert conn_fd filename filesize now g = Except.ok g1 →
      (↑(logical g1) : Multiset request_t) =
        new_entry conn_fd filename filesize now ::ₘ (↑(logical g) : Multiset request_t)) ∧
    (↑ins : Multiset request_t) = ↑outs + ↑(logical g) := by
  have hinv := h.inv
  refine ⟨?_, ?_, ?_, ?_, ?_⟩
  · intro rand hr hne
    exact remove_returns hinv hne rand hr
  · intro rand req g1 hr hstep
    obtain ⟨hmem, hp⟩ := remove_logical hinv rand hr req hstep
    refine ⟨hmem, ?_⟩
    rw [Multiset.coe_eq_coe.mpr hp, ← Multiset.cons_coe, Multiset.erase_cons_head]
  · intro conn_fd filename filesize now hne
    exact ⟨_, insert_spec hinv hne conn_fd filename filesize now⟩
  · intro conn_fd filename filesize now g1 hstep
    rw [insert_logical hinv conn_fd filename filesize now hstep, Multiset.cons_coe]
    exact Multiset.coe_eq_coe.mpr (List.perm_append_singleton _ _)
  · rw [Multiset.coe_add]
    exact Multiset.coe_eq_coe.mpr (run_conservation h)

/-- Witness of C2: capacity 3 under RANDOM holding `/a.html`, `/b.html`, `/c.html`;
with `rand() = 7` the remove returns the entry at position 1, `/b.html`. -/
theorem no_lost_or_duplicated_work_witness :
    Run (state_of 3 2 [entryA, entryB, entryC] 3) [entryC, entryB, entryA] [] ∧
      request_buffer_remove 7 (state_of 3 2 [entryA, entryB, entryC] 3) =
        Except.ok (entryB, state_of 3 2 [entryA, entryC, entryC] 2) ∧
      entryB ∈ logical (state_of 3 2 [entryA, entryB, entryC] 3) ∧
      (↑(logical (state_of 3 2 [entryA, entryC, entryC] 2)) : Multiset request_t) =
        (↑(logical (state_of 3 2 [entryA, entryB, entryC] 3)) : Multiset request_t).erase entryB :=
  ⟨run_ABC 2, by rfl,
    (no_lost_or_duplicated_work _ _ _ (run_ABC 2)).2.1 7 entryB _ (by decide) (by rfl)⟩

theorem remove_sff {g : Globals} (h : Inv g) (halgo : g.scheduling_algo = 1)
    (hne : g.buffer_size ≠ 0) (rand : Int) (hr : 0 ≤ rand) :
    ∃ req g1, request_buffer_remove rand g = Except.ok (req, g1) ∧ Inv g1 ∧
      g1.scheduling_algo = 1 ∧ g1.buffer_size = g.buffer_size - 1 ∧
      (logical g).Perm (req :: logical g1) ∧ ∀ b ∈ logical g, sff_le req b := by
  obtain ⟨j, hj, hsel, hsff, -, -⟩ := select_idx_spec h hne rand hr
  obtain ⟨a, ha, hmin⟩ := hsff halgo
  obtain ⟨req, last, hreq, hlast, heq⟩ := remove_spec h rand j hj hsel
  rw [ha] at hreq
  cases hreq
  obtain ⟨-, hinv1, hsz, hal, -⟩ := remove_inv h rand hr a heq
  refine ⟨a, _, heq, hinv1, by rw [hal, halgo], hsz, (remove_logical h rand hr a heq).2, ?_⟩
  rw [logical_eq_take h]
  exact hmin

/-! ## C3: ArrivalOrder (policy 0) is not a FIFO in the code -/

/-- C3, evaluation at the failing input: capacity 3, policy 0, `/a.html`, `/b.html`,
`/c.html` inserted in this order (a reachable state); three removes return `/a.html`,
`/c.html`, `/b.html`: the second remove returns the entry inserted last although
`/b.html`, inserted before it, is still buffered. -/
theorem fifo_three_removes_return_A_C_B :
    Run (state_of 3 0 [entryA, entryB, entryC] 3) [entryC, entryB, entryA] [] ∧
      logical (state_of 3 0 [entryA, entryB, entryC] 3) = [entryA, entryB, entryC] ∧
      remove_many [0, 0, 0] (state_of 3 0 [entryA, entryB, entryC] 3) =
        Except.ok ([entryA, entryC, entryB], state_of 3 0 [entryB, entryB, entryC] 0) :=
  ⟨run_ABC 0, by decide, by decide⟩

/-! ## C4: SmallestFirst selection -/

/-- C4: with `scheduling_algo = 1`, in every reachable non-empty state
`request_buffer_remove` returns a buffered entry whose `filesize` is at most the
`filesize` of every buffered entry and whose `arrival_time` is, under
`timespec_compare`, at most that of every buffered entry of the same `filesize`. -/
theorem smallest_first_selection (g : Globals) (h : Reachable g)
    (halgo : g.scheduling_algo = 1) (hne : g.buffer_size ≠ 0) (rand : Int) (hr : 0 ≤ rand) :
    ∃ req g1, request_buffer_remove rand g = Except.ok (req, g1) ∧ req ∈ logical g ∧
      ∀ e ∈ logical g, req.filesize ≤ e.filesize ∧
        (e.filesize = req.filesize →
          timespec_compare req.arrival_time e.arrival_time ≤ 0) := by
  obtain ⟨ins, outs, hrun⟩ := h
  obtain ⟨req, g1, hstep, -, -, -, hperm, hmin⟩ := remove_sff hrun.inv halgo hne rand hr
  refine ⟨req, g1, hstep, hperm.symm.subset (List.mem_cons_self _ _), ?_⟩
  intro e he
  rcases hmin e he with hlt | ⟨heq, hle⟩
  · exact ⟨le_of_lt hlt, fun c => absurd c (ne_of_gt hlt)⟩
  · exact ⟨le_of_eq heq, fun _ => hle⟩

/-- Witness of C4: sizes 500, 100, 300 inserted at times 10, 11, 12; the first remove
returns the size-100 entry, which satisfies the minimality property. -/
theorem smallest_first_selection_witness :
    Reachable (state_of 3 1 [entryA, entryB, entryC] 3) ∧
      request_buffer_remove 0 (state_of 3 1 [entryA, entryB, entryC] 3) =
        Except.ok (entryB, state_of 3 1 [entryA, entryC, entryC] 2) ∧
      entryB.filesize = 100 ∧
      ∃ req g1, request_buffer_remove 0 (state_of 3 1 [entryA, entryB, entryC] 3) =
          Except.ok (req, g1) ∧ req ∈ logical (state_of 3 1 [entryA, entryB, entryC] 3) ∧
        ∀ e ∈ logical (state_of 3 1 [entryA, entryB, entryC] 3),
          req.filesize ≤ e.filesize ∧
            (e.filesize = req.filesize →
              timespec_compare req.arrival_time e.arrival_time ≤ 0) :=
  ⟨⟨_, _, run_ABC 1⟩, by decide, by decide,
    smallest_first_selection _ ⟨_, _, run_ABC 1⟩ (by decide) (by decide) 0 (by decide)⟩

theorem insert_many_spec (cs : List insert_call) {g : Globals} (h : Inv g)
    (hcap : g.buffer_size + cs.length ≤ g.buffer_max_size) :
    ∃ g1, insert_many cs g = Except.ok g1 ∧ Inv g1 ∧
      g1.scheduling_algo = g.scheduling_algo ∧
      g1.buffer_size = g.buffer_size + cs.length ∧
      logical g1 = logical g ++ cs.map insert_call.entry := by
  induction cs generalizing g with
  | nil => exact ⟨g, rfl, h, rfl, by simp, by simp⟩
  | cons c cs ih =>
    simp only [List.length_cons, Nat.cast_add, Nat.cast_one] at hcap
    have hne : g.buffer_size ≠ g.buffer_max_size := by omega
    have hstep := insert_spec h hne c.conn_fd c.filename c.filesize c.now
    obtain ⟨-, hinv1, -⟩ := insert_inv h _ _ _ _ hstep
    have hlog := insert_logical h _ _ _ _ hstep
    obtain ⟨g2, h2, hinv2, halgo2, hsz2, hlog2⟩ := ih hinv1 (by
      show g.buffer_size + 1 + (cs.length : Int) ≤ g.buffer_max_size
      omega)
    refine ⟨g2, ?_, hinv2, halgo2, ?_, ?_⟩
    · simp only [insert_many, bind, Except.bind, hstep]
      exact h2
    · rw [hsz2]
      simp only [List.length_cons, Nat.cast_add, Nat.cast_one]
      show g.buffer_size + 1 + (cs.length : Int) = _
      omega
    · rw [hlog2, hlog]
      simp [insert_call.entry]

theorem remove_many_sff (rands : List Int) {g : Globals} (h : Inv g)
    (halgo : g.scheduling_algo = 1) (hlen : (rands.length : Int) = g.buffer_size)
    (hr : ∀ r ∈ rands, 0 ≤ r) :
    ∃ outs g2, remove_many rands g = Except.ok (outs, g2) ∧ Inv g2 ∧
      outs.Perm (logical g) ∧ outs.Pairwise sff_le ∧ g2.buffer_size = 0 := by
  induction rands generalizing g with
  | nil =>
    refine ⟨[], g, rfl, h, ?_, List.Pairwise.nil, by simpa using hlen.symm⟩
    have : g.buffer_size = 0 := by simpa using hlen.symm
    simp [logical, this]
  | cons r rs ih =>
    simp only [List.length_cons, Nat.cast_add, Nat.cast_one] at hlen
    have hne : g.buffer_size ≠ 0 := by omega
    obtain ⟨req, g1, hstep, hinv1, halgo1, hsz1, hperm, hmin⟩ :=
      remove_sff h halgo hne r (hr r (List.mem_cons_self _ _))
    obtain ⟨outs, g2, h2, hinv2, hperm2, hsorted, hsz2⟩ :=
      ih hinv1 halgo1 (by omega) (fun x hx => hr x (List.mem_cons_of_mem _ hx))
    refine ⟨req :: outs, g2, ?_, hinv2, ?_, ?_, hsz2⟩
    · simp only [remove_many, bind, Except.bind, hstep, h2]
      rfl
    · exact (List.Perm.cons req hperm2).trans hperm.symm
    · refine List.Pairwise.cons ?_ hsorted
      intro b hb
      exact hmin b (hperm.symm.subset (List.mem_cons_of_mem _ (hperm2.subset hb)))

/-! ## C5: SmallestFirst drain order -/

/-- C5: with `scheduling_algo = 1`, for every reachable empty buffer and every list of
at most `buffer_max_size` insert calls made with no remove in between, all inserts
return, and as many removes then all return; together they return each inserted entry
exactly once, in non-decreasing `filesize` order with entries of equal `filesize` in
non-decreasing `arrival_time` order; afterwards `buffer_size = 0` and a further remove
finds its wait condition true (it blocks). -/
theorem smallest_first_drain (g : Globals) (h : Reachable g) (halgo : g.scheduling_algo = 1)
    (hempty : g.buffer_size = 0) (cs : List insert_call)
    (hn : (cs.length : Int) ≤ g.buffer_max_size) (rands : List Int)
    (hlen : rands.length = cs.length) (hr : ∀ r ∈ rands, 0 ≤ r) :
    ∃ g1 outs g2, insert_many cs g = Except.ok g1 ∧
      remove_many rands g1 = Except.ok (outs, g2) ∧
      outs.Perm (cs.map insert_call.entry) ∧ outs.Pairwise sff_le ∧
      g2.buffer_size = 0 ∧
      ∀ rand : Int, request_buffer_remove rand g2 = Except.error Halt.blocked := by
  obtain ⟨ins, outs0, hrun⟩ := h
  have hinv := hrun.inv
  obtain ⟨g1, h1, hinv1, halgo1, hsz1, hlog1⟩ := insert_many_spec cs hinv (by omega)
  have hlog0 : logical g = [] := by simp [logical, hempty]
  rw [hlog0, List.nil_append] at hlog1
  obtain ⟨outs, g2, h2, -, hperm, hsorted, hsz2⟩ :=
    remove_many_sff rands hinv1 (by rw [halgo1, halgo]) (by rw [hsz1, hlen]; omega) hr
  refine ⟨g1, outs, g2, h1, h2, by rw [← hlog1]; exact hperm, hsorted, hsz2, ?_⟩
  intro rand
  simp [request_buffer_remove, hsz2]

/-- Witness of C5, the end-to-end scenario: capacity 2, SmallestFirst, `/a.html` (500)
then `/b.html` (100) inserted; the two removes return `/b.html` then `/a.html`, and a
third remove blocks. -/
theorem smallest_first_drain_witness :
    Reachable (request_buffer_init 2 1 [slot0, slot0]) ∧
      insert_many [⟨4, "/a.html".toList, 500, ⟨10, 0⟩⟩, ⟨5, "/b.html".toList, 100, ⟨11, 0⟩⟩]
        (request_buffer_init 2 1 [slot0, slot0]) =
          Except.ok (state_of 2 1 [entryA, entryB] 2) ∧
      remove_many [0, 0] (state_of 2 1 [entryA, entryB] 2) =
        Except.ok ([entryB, entryA], state_of 2 1 [entryA, entryB] 0) ∧
      request_buffer_remove 0 (state_of 2 1 [entryA, entryB] 0) = Except.error Halt.blocked ∧
      ∃ g1 outs g2,
        insert_many [⟨4, "/a.html".toList, 500, ⟨10, 0⟩⟩, ⟨5, "/b.html".toList, 100, ⟨11, 0⟩⟩]
          (request_buffer_init 2 1 [slot0, slot0]) = Except.ok g1 ∧
        remove_many [0, 0] g1 = Except.ok (outs, g2) ∧
        outs.Perm (List.map insert_call.entry
          [⟨4, "/a.html".toList, 500, ⟨10, 0⟩⟩, ⟨5, "/b.html".toList, 100, ⟨11, 0⟩⟩]) ∧
        outs.Pairwise sff_le ∧ g2.buffer_size = 0 ∧
        ∀ rand : Int, request_buffer_remove rand g2 = Except.error Halt.blocked :=
  ⟨⟨_, _, Run.init 2 1 [slot0, slot0] (by decide) (by decide)⟩, by decide, by decide, by decide,
    smallest_first_drain _ ⟨_, _, Run.init 2 1 [slot0, slot0] (by decide) (by decide)⟩
      (by decide) (by decide) _ (by decide) [0, 0] (by decide) (by decide)⟩

theorem count_iff {p q : Nat → Prop} [DecidablePred p] [DecidablePred q] (b : Nat)
    (h : ∀ i, p i ↔ q i) : Nat.count p b = Nat.count q b := by
  induction b with
  | zero => simp
  | succ b ih =>
    rw [Nat.count_succ, Nat.count_succ, ih]
    by_cases hq : q b
    · rw [if_pos hq, if_pos ((h b).mpr hq)]
    · rw [if_neg hq, if_neg (fun c => hq ((h b).mp c))]

theorem select_random {g : Globals} (h : Inv g) (halgo : g.scheduling_algo = 2)
    (hne : g.buffer_size ≠ 0) (rand : Int) (hr : 0 ≤ rand) :
    select_idx rand g = Except.ok (rand % g.buffer_size) := by
  obtain ⟨j, -, hsel, -, hj, -⟩ := select_idx_spec h hne rand hr
  rw [hsel, hj halgo]

theorem selection_count_eq {g : Globals} (h : Inv g) (halgo : g.scheduling_algo = 2)
    (hne : g.buffer_size ≠ 0) (k : Nat) (hk : (k : Int) < g.buffer_size) :
    selection_count g k =
      (RAND_MAX + 1) / g.buffer_size.toNat +
        if k < (RAND_MAX + 1) % g.buffer_size.toNat then 1 else 0 := by
  obtain ⟨n, m, hn, hm, h1, h2, h3, h4, h5⟩ := h.nat
  have hnpos : 0 < n := by omega
  have hkn : k < n := by omega
  have e : g.buffer_size.toNat = n := by omega
  rw [e]
  unfold selection_count
  rw [count_iff (RAND_MAX + 1) (q := fun r => r ≡ k [MOD n]), Nat.count_modEq_card _ hnpos k,
    Nat.mod_eq_of_lt hkn]
  intro r
  rw [select_random h halgo hne (r : Int) (by omega), hn]
  unfold Nat.ModEq
  rw [Nat.mod_eq_of_lt hkn]
  constructor
  · intro c
    have c1 : ((r : Int) % (n : Int)) = (k : Int) := by injection c
    omega
  · intro c
    have : ((r : Int) % (n : Int)) = (k : Int) := by omega
    rw [this]

/-! ## C6: order of the remaining entries under ArrivalOrder -/

/-- C6, evaluation at the failing input: capacity 3, policy 0, logical sequence
`/a.html`, `/b.html`, `/c.html`; the remove returns `/a.html` and leaves the logical
sequence `/c.html`, `/b.html`, which is not the previous sequence with the returned
entry deleted (`/b.html`, `/c.html`). -/
theorem fifo_remove_reorders_remaining :
    Reachable (state_of 3 0 [entryA, entryB, entryC] 3) ∧
      request_buffer_remove 0 (state_of 3 0 [entryA, entryB, entryC] 3) =
        Except.ok (entryA, state_of 3 0 [entryC, entryB, entryC] 2) ∧
      logical (state_of 3 0 [entryC, entryB, entryC] 2) = [entryC, entryB] ∧
      (logical (state_of 3 0 [entryA, entryB, entryC] 3)).erase entryA = [entryB, entryC] ∧
      logical (state_of 3 0 [entryC, entryB, entryC] 2) ≠
        (logical (state_of 3 0 [entryA, entryB, entryC] 3)).erase entryA :=
  ⟨⟨_, _, run_ABC 0⟩, by decide, by decide, by decide, by decide⟩

/-! ## C7: Random selection -/

/-- C7, counterexample: with three buffered entries under RANDOM, position 0 is
selected by 715827883 of the `2^31` values of `rand()` and position 2 by 715827882:
the positions are not selected by the same number of values. -/
theorem random_selection_not_uniform :
    Reachable (state_of 3 2 [entryA, entryB, entryC] 3) ∧
      selection_count (state_of 3 2 [entryA, entryB, entryC] 3) 0 = 715827883 ∧
      selection_count (state_of 3 2 [entryA, entryB, entryC] 3) 2 = 715827882 ∧
      selection_count (state_of 3 2 [entryA, entryB, entryC] 3) 0 ≠
        selection_count (state_of 3 2 [entryA, entryB, entryC] 3) 2 := by
  have hrun := run_ABC 2
  have e0 := selection_count_eq hrun.inv rfl (by decide) 0 (by decide)
  have e2 := selection_count_eq hrun.inv rfl (by decide) 2 (by decide)
  have c0 : selection_count (state_of 3 2 [entryA, entryB, entryC] 3) 0 = 715827883 := by
    rw [e0]; decide
  have c2 : selection_count (state_of 3 2 [entryA, entryB, entryC] 3) 2 = 715827882 := by
    rw [e2]; decide
  refine ⟨⟨_, _, hrun⟩, c0, c2, ?_⟩
  rw [c0, c2]
  decide

/-- C7 as amended: with `scheduling_algo = 2` and `n = buffer_size ≥ 1` buffered entries
in a reachable state, `request_buffer_remove` returns the entry at logical position
`r mod n` for every value `r ≥ 0` of `rand()`; of the `RAND_MAX + 1 = 2^31` values of
`r`, position `k` is selected by `2^31 / n` of them, plus one when `k < 2^31 mod n`; so
any two positions differ by at most one, and all positions are selected equally often
exactly when `n` divides `2^31`. -/
theorem random_selection_counts (g : Globals) (h : Reachable g)
    (halgo : g.scheduling_algo = 2) (hne : g.buffer_size ≠ 0) :
    (∀ rand : Int, 0 ≤ rand →
      ∃ req g1, request_buffer_remove rand g = Except.ok (req, g1) ∧
        select_idx rand g = Except.ok (rand % g.buffer_size) ∧
        (logical g)[(rand % g.buffer_size).toNat]? = some req) ∧
    (∀ k : Nat, (k : Int) < g.buffer_size →
      selection_count g k =
        (RAND_MAX + 1) / g.buffer_size.toNat +
          if k < (RAND_MAX + 1) % g.buffer_size.toNat then 1 else 0) ∧
    (∀ k k1 : Nat, (k : Int) < g.buffer_size → (k1 : Int) < g.buffer_size →
      selection_count g k ≤ selection_count g k1 + 1) ∧
    ((∀ k k1 : Nat, (k : Int) < g.buffer_size → (k1 : Int) < g.buffer_size →
      selection_count g k = selection_count g k1) ↔
        (RAND_MAX + 1) % g.buffer_size.toNat = 0) := by
  obtain ⟨ins, outs, hrun⟩ := h
  have hinv := hrun.inv
  obtain ⟨n, m, hn, hm, h1, h2, h3, h4, h5⟩ := hinv.nat
  have hcount := fun k hk => selection_count_eq hinv halgo hne k hk
  refine ⟨?_, hcount, ?_, ?_⟩
  · intro rand hr
    obtain ⟨req, g1, hstep⟩ := remove_returns hinv hne rand hr
    obtain ⟨-, -, -, -, j, last, hj, hsel, hreq, -, -⟩ := remove_inv hinv rand hr req hstep
    have hsel2 := select_random hinv halgo hne rand hr
    refine ⟨req, g1, hstep, hsel2, ?_⟩
    rw [hsel2] at hsel
    have hj2 : rand % g.buffer_size = (j : Int) := by injection hsel
    rw [hj2, Int.toNat_ofNat, logical_eq_take hinv, List.getElem?_take_of_lt (by omega)]
    exact hreq
  · intro k k1 hk hk1
    rw [hcount k hk, hcount k1 hk1]
    split_ifs <;> omega
  · have hnpos : 0 < g.buffer_size.toNat := by omega
    constructor
    · intro hall
      by_contra hd
      have hlt := Nat.mod_lt (RAND_MAX + 1) hnpos
      have e := hall 0 (g.buffer_size.toNat - 1) (by omega) (by omega)
      rw [hcount 0 (by omega), hcount (g.buffer_size.toNat - 1) (by omega),
        if_pos (by omega), if_neg (by omega)] at e
      omega
    · intro hz k k1 hk hk1
      rw [hcount k hk, hcount k1 hk1, hz]
      simp

/-- Witness of C7 as amended: three entries under RANDOM; `rand() = 7` selects
position 1, and position 1 is selected by 715827883 values of `rand()`. -/
theorem random_selection_counts_witness :
    Reachable (state_of 3 2 [entryA, entryB, entryC] 3) ∧
      request_buffer_remove 7 (state_of 3 2 [entryA, entryB, entryC] 3) =
        Except.ok (entryB, state_of 3 2 [entryA, entryC, entryC] 2) ∧
      selection_count (state_of 3 2 [entryA, entryB, entryC] 3) 1 =
        (RAND_MAX + 1) / 3 + if 1 < (RAND_MAX + 1) % 3 then 1 else 0 :=
  ⟨⟨_, _, run_ABC 2⟩, by decide,
    (random_selection_counts _ ⟨_, _, run_ABC 2⟩ (by decide) (by decide)).2.1 1 (by decide)⟩

/-! ## C8: insert appends -/

/-- C8: in every reachable state with `buffer_size < buffer_max_size`,
`request_buffer_insert(conn_fd, filename, filesize)` executed at clock reading `now`
returns; the logical sequence afterwards is the previous one followed by one new entry
with fields `conn_fd`, `filename`, `filesize`, `usage_count = 0`, `arrival_time = now`;
`buffer_size` has grown by exactly 1, and capacity and policy are unchanged. -/
theorem insert_appends (g : Globals) (h : Reachable g)
    (hlt : g.buffer_size < g.buffer_max_size) (conn_fd : Int) (filename : List Char)
    (filesize : Int) (now : timespec) :
    ∃ g1, request_buffer_insert conn_fd filename filesize now g = Except.ok g1 ∧
      logical g1 = logical g ++
        [{ conn_fd := conn_fd, filename := filename, filesize := filesize,
           usage_count := 0, arrival_time := now }] ∧
      (logical g1).length = (logical g).length + 1 ∧
      g1.buffer_size = g.buffer_size + 1 ∧
      g1.buffer_max_size = g.buffer_max_size ∧
      g1.scheduling_algo = g.scheduling_algo := by
  obtain ⟨ins, outs, hrun⟩ := h
  have hinv := hrun.inv
  have hstep := insert_spec hinv (ne_of_lt hlt) conn_fd filename filesize now
  have hlog := insert_logical hinv conn_fd filename filesize now hstep
  refine ⟨_, hstep, hlog, ?_, rfl, rfl, rfl⟩
  rw [hlog]
  simp

/-- Witness of C8: capacity 2 holding `/a.html`; inserting `/b.html` at time 11. -/
theorem insert_appends_witness :
    Reachable (state_of 2 0 [entryA, slot0] 1) ∧
      ∃ g1, request_buffer_insert 5 "/b.html".toList 100 ⟨11, 0⟩
          (state_of 2 0 [entryA, slot0] 1) = Except.ok g1 ∧
        logical g1 = logical (state_of 2 0 [entryA, slot0] 1) ++
          [{ conn_fd := 5, filename := "/b.html".toList, filesize := 100,
             usage_count := 0, arrival_time := ⟨11, 0⟩ }] ∧
        (logical g1).length = (logical (state_of 2 0 [entryA, slot0] 1)).length + 1 ∧
        g1.buffer_size = (state_of 2 0 [entryA, slot0] 1).buffer_size + 1 ∧
        g1.buffer_max_size = (state_of 2 0 [entryA, slot0] 1).buffer_max_size ∧
        g1.scheduling_algo = (state_of 2 0 [entryA, slot0] 1).scheduling_algo :=
  ⟨⟨_, _, Run.insert (request_buffer_init 2 0 [slot0, slot0]) (state_of 2 0 [entryA, slot0] 1)
      _ _ 4 "/a.html".toList 500 ⟨10, 0⟩
      (Run.init 2 0 [slot0, slot0] (by decide) (by decide)) (by rfl)⟩,
    insert_appends _ ⟨_, _, Run.insert (request_buffer_init 2 0 [slot0, slot0])
      (state_of 2 0 [entryA, slot0] 1) _ _ 4 "/a.html".toList 500 ⟨10, 0⟩
      (Run.init 2 0 [slot0, slot0] (by decide) (by decide)) (by rfl)⟩
      (by decide) 5 "/b.html".toList 100 ⟨11, 0⟩⟩

theorem parse_uri_static (uri : List Char) :
    ((request_parse_uri uri).1 = 1 ↔ ¬ "cgi".toList <:+: uri) ∧
      ((request_parse_uri uri).1 ≠ 0 ↔ (request_parse_uri uri).1 = 1) := by
  unfold request_parse_uri strstr
  by_cases h : "cgi".toList <:+: uri
  · simp only [h, decide_True, Bool.not_true, Bool.false_eq_true, if_false]
    cases index uri '?' <;> simp
  · simp only [h, decide_False, Bool.not_false, if_true]
    split_ifs <;> simp

theorem strcasecmp_get (method : List Char) :
    strcasecmp method "GET".toList ≠ 0 ↔ ¬ method.map Char.toLower = "get".toList := by
  have e : "GET".toList.map Char.toLower = "get".toList := by decide
  unfold strcasecmp
  rw [e]
  by_cases h : method.map Char.toLower = "get".toList
  · rw [if_pos h]
    exact ⟨fun c => absurd rfl c, fun c => absurd h c⟩
  · rw [if_neg h]
    exact ⟨fun _ => h, fun _ => by decide⟩

theorem request_handle_cases (fd : Int) (method uri : List Char)
    (stat : List Char → Option stat_buf) :
    (∃ sbuf, method.map Char.toLower = "get".toList ∧ (request_parse_uri uri).1 = 1 ∧
        stat (request_parse_uri uri).2.1 = some sbuf ∧
        S_ISREG sbuf.st_mode = true ∧ S_IRUSR &&& sbuf.st_mode ≠ 0 ∧
        ¬ "..".toList <:+: (request_parse_uri uri).2.1 ∧
        request_handle fd method uri stat =
          handled.enqueue fd (request_parse_uri uri).2.1 (to_int32 sbuf.st_size)) ∨
    (¬ (method.map Char.toLower = "get".toList ∧ (request_parse_uri uri).1 = 1 ∧
        ∃ sbuf, stat (request_parse_uri uri).2.1 = some sbuf ∧
          S_ISREG sbuf.st_mode = true ∧ S_IRUSR &&& sbuf.st_mode ≠ 0 ∧
          ¬ "..".toList <:+: (request_parse_uri uri).2.1) ∧
      ∃ cause errnum shortmsg longmsg closed,
        request_handle fd method uri stat =
          handled.error cause errnum shortmsg longmsg closed ∧
        errnum ∈ ["501", "404", "403"]) := by
  obtain ⟨-, hs2⟩ := parse_uri_static uri
  have hget := strcasecmp_get method
  unfold request_handle
  by_cases hm : method.map Char.toLower = "get".toList
  · have hm2 : ¬ strcasecmp method "GET".toList ≠ 0 := fun c => hget.mp c hm
    rw [if_neg hm2]
    simp only
    cases hst : stat (request_parse_uri uri).2.1 with
    | none =>
      right
      refine ⟨?_, _, _, _, _, _, rfl, by decide⟩
      rintro ⟨-, -, sbuf, c, -⟩
      cases c
    | some sbuf =>
      simp only
      by_cases hstatic : (request_parse_uri uri).1 = 1
      · rw [if_pos (hs2.mpr hstatic)]
        by_cases hc : (!S_ISREG sbuf.st_mode || (S_IRUSR &&& sbuf.st_mode) == 0) = true
        · rw [if_pos hc]
          right
          refine ⟨?_, _, _, _, _, _, rfl, by decide⟩
          rintro ⟨-, -, sbuf1, c, hreg, hrd, -⟩
          cases c
          simp [hreg, hrd] at hc
        · rw [if_neg hc]
          have hreg : S_ISREG sbuf.st_mode = true := by
            by_contra c; exact hc (by simp [c])
          have hrd : S_IRUSR &&& sbuf.st_mode ≠ 0 := by
            intro c; exact hc (by simp [c])
          by_cases hdd : "..".toList <:+: (request_parse_uri uri).2.1
          · have hdd2 : strstr (request_parse_uri uri).2.1 "..".toList = true := by
              unfold strstr; exact decide_eq_true hdd
            rw [if_pos hdd2]
            right
            refine ⟨?_, _, _, _, _, _, rfl, by decide⟩
            rintro ⟨-, -, sbuf1, -, -, -, c⟩
            exact c hdd
          · have hdd2 : ¬ strstr (request_parse_uri uri).2.1 "..".toList = true := by
              unfold strstr; intro c; exact hdd (of_decide_eq_true c)
            rw [if_neg hdd2]
            left
            exact ⟨sbuf, hm, hstatic, rfl, hreg, hrd, hdd, rfl⟩
      · rw [if_neg (fun c => hstatic (hs2.mp c))]
        right
        refine ⟨?_, _, _, _, _, _, rfl, by decide⟩
        rintro ⟨-, c, -⟩
        exact hstatic c
  · rw [if_pos (hget.mpr hm)]
    right
    refine ⟨?_, _, _, _, _, _, rfl, by decide⟩
    rintro ⟨c, -⟩
    exact hm c

/-! ## C9: admission gate -/

/-- C9: `request_parse_uri` classifies the URI as static exactly when it does not
contain `cgi`; `request_handle` calls `request_buffer_insert` if and only if the method
equals `GET` case-insensitively, the URI is classified static, `stat` of the derived
filename succeeds, the file is a regular file with the owner-read bit set, and the
filename contains no `..`; in every other case it calls `request_error` with status
501, 404 or 403 and does not call `request_buffer_insert`; so every call of
`request_buffer_insert` passes `fd` and the derived filename, which contains no `..`. -/
theorem admission_gate (fd : Int) (method uri : List Char)
    (stat : List Char → Option stat_buf) :
    ((request_parse_uri uri).1 = 1 ↔ ¬ "cgi".toList <:+: uri) ∧
    ((∃ conn_fd filename filesize,
        request_handle fd method uri stat = handled.enqueue conn_fd filename filesize) ↔
      (method.map Char.toLower = "get".toList ∧ (request_parse_uri uri).1 = 1 ∧
        ∃ sbuf, stat (request_parse_uri uri).2.1 = some sbuf ∧
          S_ISREG sbuf.st_mode = true ∧ S_IRUSR &&& sbuf.st_mode ≠ 0 ∧
          ¬ "..".toList <:+: (request_parse_uri uri).2.1)) ∧
    ((¬ ∃ conn_fd filename filesize,
        request_handle fd method uri stat = handled.enqueue conn_fd filename filesize) →
      ∃ cause errnum shortmsg longmsg closed,
        request_handle fd method uri stat =
          handled.error cause errnum shortmsg longmsg closed ∧
        errnum ∈ ["501", "404", "403"]) ∧
    (∀ conn_fd filename filesize,
      request_handle fd method uri stat = handled.enqueue conn_fd filename filesize →
      conn_fd = fd ∧ filename = (request_parse_uri uri).2.1 ∧
        ¬ "..".toList <:+: filename) := by
  refine ⟨(parse_uri_static uri).1, ?_, ?_, ?_⟩
  · constructor
    · rintro ⟨c, f, s, h⟩
      rcases request_handle_cases fd method uri stat with
        ⟨sbuf, h1, h2, h3, h4, h5, h6, -⟩ | ⟨-, _, _, _, _, _, he, -⟩
      · exact ⟨h1, h2, sbuf, h3, h4, h5, h6⟩
      · rw [he] at h; cases h
    · intro hadm
      rcases request_handle_cases fd method uri stat with
        ⟨sbuf, -, -, -, -, -, -, he⟩ | ⟨hn, -⟩
      · exact ⟨_, _, _, he⟩
      · exact absurd hadm hn
  · intro hno
    rcases request_handle_cases fd method uri stat with
      ⟨sbuf, -, -, -, -, -, -, he⟩ | ⟨-, herr⟩
    · exact absurd ⟨_, _, _, he⟩ hno
    · exact herr
  · intro c f s h
    rcases request_handle_cases fd method uri stat with
      ⟨sbuf, -, -, -, -, -, h6, he⟩ | ⟨-, _, _, _, _, _, he, -⟩
    · rw [he] at h
      cases h
      exact ⟨rfl, rfl, h6⟩
    · rw [he] at h; cases h

theorem last_idx_spec {g : Globals} (h : Inv g) (hne : g.buffer_size ≠ 0) :
    c_rem (g.buffer_tail - 1 + g.buffer_max_size) g.buffer_max_size =
      Except.ok (g.buffer_size - 1) := by
  obtain ⟨n, m, hn, hm, h1, h2, h3, h4, h5⟩ := h.nat
  unfold c_rem
  rw [if_neg (by omega), h5, hm, hn]
  congr 1
  rw [Int.tmod_eq_emod (by omega) (by omega)]
  rcases Nat.lt_or_ge n m with hlt | hge
  · rw [Nat.mod_eq_of_lt hlt]
    have : ((n : Int) - 1 + m) = ((n : Int) - 1) + m * 1 := by omega
    rw [this, Int.add_mul_emod_self_left]
    exact Int.emod_eq_of_lt (by omega) (by omega)
  · have hnm : n = m := by omega
    subst hnm
    rw [Nat.mod_self]
    have : ((0 : Nat) : Int) - 1 + (n : Int) = (n : Int) - 1 := by omega
    rw [this]
    exact Int.emod_eq_of_lt (by omega) (by omega)

/-! ## C15: `timespec_compare` -/

/-- C15: for all `a` and `b`, `timespec_compare a b` is -1, 0 or 1 according to whether
`(a.tv_sec, a.tv_nsec)` is lexicographically less than, equal to, or greater than
`(b.tv_sec, b.tv_nsec)`; it is 0 exactly when both fields are equal (`a = b`); it is
antisymmetric, `timespec_compare a b = - timespec_compare b a`; and the relation
`timespec_compare a b < 0` is transitive and trichotomous. -/
theorem timespec_compare_three_way (a b c : timespec) :
    ((a.tv_sec < b.tv_sec ∨ (a.tv_sec = b.tv_sec ∧ a.tv_nsec < b.tv_nsec)) →
      timespec_compare a b = -1) ∧
    ((a.tv_sec = b.tv_sec ∧ a.tv_nsec = b.tv_nsec) → timespec_compare a b = 0) ∧
    ((b.tv_sec < a.tv_sec ∨ (a.tv_sec = b.tv_sec ∧ b.tv_nsec < a.tv_nsec)) →
      timespec_compare a b = 1) ∧
    (timespec_compare a b = -1 ∨ timespec_compare a b = 0 ∨ timespec_compare a b = 1) ∧
    (timespec_compare a b = 0 ↔ (a.tv_sec = b.tv_sec ∧ a.tv_nsec = b.tv_nsec)) ∧
    (timespec_compare a b = 0 ↔ a = b) ∧
    timespec_compare a b = - timespec_compare b a ∧
    (timespec_compare a b < 0 → timespec_compare b c < 0 → timespec_compare a c < 0) ∧
    ((timespec_compare a b < 0 ∧ a ≠ b ∧ ¬ timespec_compare b a < 0) ∨
      (¬ timespec_compare a b < 0 ∧ a = b ∧ ¬ timespec_compare b a < 0) ∨
      (¬ timespec_compare a b < 0 ∧ a ≠ b ∧ timespec_compare b a < 0)) := by
  have hext : a = b ↔ (a.tv_sec = b.tv_sec ∧ a.tv_nsec = b.tv_nsec) := by
    constructor
    · intro e; rw [e]; exact ⟨rfl, rfl⟩
    · intro e
      cases a; cases b
      simp only [timespec.mk.injEq]
      exact e
  have hzero : timespec_compare a b = 0 ↔ (a.tv_sec = b.tv_sec ∧ a.tv_nsec = b.tv_nsec) := by
    unfold timespec_compare
    split_ifs <;> constructor <;> intro hh <;> first | exact False.elim hh | omega
  refine ⟨?_, ?_, ?_, ?_, hzero, hzero.trans hext.symm, ?_, ?_, ?_⟩
  · unfold timespec_compare
    split_ifs <;> omega
  · unfold timespec_compare
    split_ifs <;> omega
  · unfold timespec_compare
    split_ifs <;> omega
  · unfold timespec_compare
    split_ifs <;> simp
  · unfold timespec_compare
    split_ifs <;> omega
  · rw [timespec_compare_lt, timespec_compare_lt, timespec_compare_lt]
    omega
  · simp only [ne_eq, hext, timespec_compare_lt]
    omega

/-- Capacity 3, policy 0: `/a.html`, `/b.html`, `/c.html` inserted, then one remove,
which returns `/a.html`. -/
theorem run_ABC_remove :
    Run (state_of 3 0 [entryC, entryB, entryC] 2) [entryC, entryB, entryA] [entryA] :=
  Run.remove (state_of 3 0 [entryA, entryB, entryC] 3) _ _ _ 0 entryA (run_ABC 0)
    (by decide) (by rfl)

/-! ## C13: representation invariant -/

/-- C13, counterexample: capacity 3, policy 0, after inserting `/a.html`, `/b.html`,
`/c.html` and removing once, two entries are buffered; `last_idx` is slot 1, which holds
`/b.html`, while the most recently inserted entry still buffered is `/c.html`. -/
theorem last_slot_not_most_recent :
    Run (state_of 3 0 [entryC, entryB, entryC] 2) [entryC, entryB, entryA] [entryA] ∧
      most_recent_surviving [entryC, entryB, entryA]
        (state_of 3 0 [entryC, entryB, entryC] 2) = some entryC ∧
      c_rem ((state_of 3 0 [entryC, entryB, entryC] 2).buffer_tail - 1 +
          (state_of 3 0 [entryC, entryB, entryC] 2).buffer_max_size)
        (state_of 3 0 [entryC, entryB, entryC] 2).buffer_max_size = Except.ok 1 ∧
      buffer_get (state_of 3 0 [entryC, entryB, entryC] 2) 1 = Except.ok entryB ∧
      entryB ≠ entryC :=
  ⟨run_ABC_remove, by decide, by decide, by decide, by decide⟩

/-- C13 as amended: in every state reachable from the initial state by insert and remove
steps under any policy, `buffer_head = 0`, `buffer_tail = buffer_size mod
buffer_max_size`, the array has `buffer_max_size` slots, and the buffered entries occupy
exactly the physical slots `0 .. buffer_size - 1` (logical position `i` is slot `i`); so
when the buffer is not empty the `last_idx` computed in remove is `buffer_size - 1`, the
slot of the last entry of the logical sequence. -/
theorem representation_invariant (g : Globals) (h : Reachable g) :
    g.buffer_head = 0 ∧ g.buffer_tail = g.buffer_size % g.buffer_max_size ∧
    g.buffer.length = g.buffer_max_size.toNat ∧
    logical g = g.buffer.take g.buffer_size.toNat ∧
    (logical g).length = g.buffer_size.toNat ∧
    (∀ i : Nat, (i : Int) < g.buffer_size → logical_slot g i = g.buffer[i]?) ∧
    (g.buffer_size ≠ 0 →
      c_rem (g.buffer_tail - 1 + g.buffer_max_size) g.buffer_max_size =
        Except.ok (g.buffer_size - 1) ∧
      ∃ e, buffer_get g (g.buffer_size - 1) = Except.ok e ∧
        (logical g).getLast? = some e) := by
  obtain ⟨ins, outs, hrun⟩ := h
  have hinv := hrun.inv
  obtain ⟨n, m, hn, hm, h1, h2, h3, h4, h5⟩ := hinv.nat
  have htake := logical_eq_take hinv
  have hsz : g.buffer_size.toNat = n := by omega
  refine ⟨h4, ?_, hinv.2.1, htake, ?_, fun i hi => logical_slot_of_lt hinv i hi, ?_⟩
  · rw [hinv.2.2.2.2.2, Int.tmod_eq_emod (by omega) (by omega)]
  · rw [htake, List.length_take, hsz]
    omega
  · intro hne
    have hl : n - 1 < g.buffer.length := by omega
    have hcast : ((n - 1 : Nat) : Int) = g.buffer_size - 1 := by omega
    refine ⟨last_idx_spec hinv hne, g.buffer[n - 1], ?_, ?_⟩
    · rw [← hcast]
      exact buffer_get_of_lt g (n - 1) hl
    · rw [htake, hsz, List.getLast?_eq_getElem?, List.length_take,
        List.getElem?_take_of_lt (by omega)]
      rw [Nat.min_eq_left (by omega)]
      exact List.getElem?_eq_getElem hl

/-- Witness of C13 as amended: the state of the counterexample, with `/c.html` in slot 0
and `/b.html` in slot 1. -/
theorem representation_invariant_witness :
    Reachable (state_of 3 0 [entryC, entryB, entryC] 2) ∧
      (state_of 3 0 [entryC, entryB, entryC] 2).buffer_head = 0 ∧
      (state_of 3 0 [entryC, entryB, entryC] 2).buffer_tail =
        (state_of 3 0 [entryC, entryB, entryC] 2).buffer_size %
          (state_of 3 0 [entryC, entryB, entryC] 2).buffer_max_size ∧
      logical (state_of 3 0 [entryC, entryB, entryC] 2) = [entryC, entryB] ∧
      logical (state_of 3 0 [entryC, entryB, entryC] 2) =
        (state_of 3 0 [entryC, entryB, entryC] 2).buffer.take
          (state_of 3 0 [entryC, entryB, entryC] 2).buffer_size.toNat :=
  ⟨⟨_, _, run_ABC_remove⟩,
    (representation_invariant _ ⟨_, _, run_ABC_remove⟩).1,
    (representation_invariant _ ⟨_, _, run_ABC_remove⟩).2.1, by decide,
    (representation_invariant _ ⟨_, _, run_ABC_remove⟩).2.2.2.1⟩

/-! ## C14: index and division safety -/

/-- C14: in every reachable state (so `buffer_max_size ≥ 1`) and for `rand() ≥ 0`: the
modulus `buffer_max_size` is not zero and the array has `buffer_max_size` slots; when
insert passes its wait loop, `buffer_tail` lies in `[0, buffer_max_size)`; when remove
passes its wait loop, every `real_idx` of the SFF loop lies in `[0, buffer_max_size)`,
every value of `idx` (during the SFF loop and as finally selected) and `last_idx` lie in
`[0, buffer_size)`, hence in `[0, buffer_max_size)`, and the modulus `buffer_size` of
the RANDOM branch is not zero; neither call performs an undefined operation. -/
theorem index_and_division_safety (g : Globals) (h : Reachable g) (rand : Int)
    (hr : 0 ≤ rand) :
    g.buffer_max_size ≠ 0 ∧ g.buffer.length = g.buffer_max_size.toNat ∧
    g.buffer_size ≤ g.buffer_max_size ∧
    (g.buffer_size ≠ g.buffer_max_size →
      0 ≤ g.buffer_tail ∧ g.buffer_tail < g.buffer_max_size) ∧
    (∀ (conn_fd : Int) (filename : List Char) (filesize : Int) (now : timespec),
      request_buffer_insert conn_fd filename filesize now g ≠
        Except.error Halt.undefined) ∧
    (g.buffer_size ≠ 0 →
      (∀ i : Nat, (i : Int) < g.buffer_size →
        ∃ real_idx, c_rem (g.buffer_head + i) g.buffer_max_size = Except.ok real_idx ∧
          0 ≤ real_idx ∧ real_idx < g.buffer_max_size) ∧
      (∀ k : Nat, (k : Int) ≤ g.buffer_size →
        ∃ idx, sff_scan g k = Except.ok idx ∧ 0 ≤ idx ∧ idx < g.buffer_size) ∧
      (∃ random_offset, c_rem rand g.buffer_size = Except.ok random_offset ∧
        0 ≤ random_offset ∧ random_offset < g.buffer_size) ∧
      (∃ idx, select_idx rand g = Except.ok idx ∧ 0 ≤ idx ∧ idx < g.buffer_size) ∧
      (∃ last_idx,
        c_rem (g.buffer_tail - 1 + g.buffer_max_size) g.buffer_max_size =
          Except.ok last_idx ∧ 0 ≤ last_idx ∧ last_idx < g.buffer_size)) ∧
    request_buffer_remove rand g ≠ Except.error Halt.undefined := by
  obtain ⟨ins, outs, hrun⟩ := h
  have hinv := hrun.inv
  obtain ⟨n, m, hn, hm, h1, h2, h3, h4, h5⟩ := hinv.nat
  refine ⟨by omega, hinv.2.1, by omega, ?_, ?_, ?_, ?_⟩
  · intro hne
    have hlt : n < m := by omega
    rw [h5, Nat.mod_eq_of_lt hlt]
    omega
  · intro conn_fd filename filesize now
    by_cases hfull : g.buffer_size = g.buffer_max_size
    · simp [request_buffer_insert, hfull]
    · rw [insert_spec hinv hfull]
      simp
  · intro hne
    refine ⟨?_, ?_, ?_, ?_, ?_⟩
    · intro i hi
      refine ⟨(i : Int), ?_, by omega, by omega⟩
      rw [h4, Int.zero_add]
      exact c_rem_of_lt (by omega) (by omega)
    · intro k hk
      obtain ⟨j, hj, hscan, -⟩ := sff_scan_spec hinv hne k hk
      exact ⟨(j : Int), hscan, by omega, hj⟩
    · refine ⟨rand % g.buffer_size, ?_, Int.emod_nonneg rand hne,
        Int.emod_lt_of_pos rand (by omega)⟩
      unfold c_rem
      rw [if_neg hne, Int.tmod_eq_emod hr (by omega)]
    · obtain ⟨j, hj, hsel, -⟩ := select_idx_spec hinv hne rand hr
      exact ⟨(j : Int), hsel, by omega, hj⟩
    · exact ⟨g.buffer_size - 1, last_idx_spec hinv hne, by omega, by omega⟩
  · by_cases hempty : g.buffer_size = 0
    · simp [request_buffer_remove, hempty]
    · obtain ⟨req, g1, hstep⟩ := remove_returns hinv hempty rand hr
      rw [hstep]
      simp

/-- Witness of C14: the full buffer of capacity 3 under RANDOM with `rand() = 7`. -/
theorem index_and_division_safety_witness :
    Reachable (state_of 3 2 [entryA, entryB, entryC] 3) ∧
      select_idx 7 (state_of 3 2 [entryA, entryB, entryC] 3) = Except.ok 1 ∧
      request_buffer_remove 7 (state_of 3 2 [entryA, entryB, entryC] 3) ≠
        Except.error Halt.undefined :=
  ⟨⟨_, _, run_ABC 2⟩, by decide,
    (index_and_division_safety _ ⟨_, _, run_ABC 2⟩ 7 (by decide)).2.2.2.2.2.2⟩

theorem set_take_eq_eraseIdx_iff {α : Type} (L : List α) (k : Nat) (last : α)
    (hk : k < L.length) (hlast : L[L.length - 1]? = some last) (hnd : L.Nodup) :
    (L.take (L.length - 1)).set k last = L.eraseIdx k ↔ L.length ≤ k + 2 := by
  have hmin : min (L.length - 1) L.length = L.length - 1 := Nat.min_eq_left (Nat.sub_le _ _)
  constructor
  · intro heq
    by_contra hlt
    have hlt2 : k + 2 < L.length := by omega
    have e : ((L.take (L.length - 1)).set k last)[k]? = (L.eraseIdx k)[k]? := by rw [heq]
    rw [List.getElem?_set, List.length_take, hmin, if_pos rfl,
      if_pos (show k < L.length - 1 by omega), List.getElem?_eraseIdx,
      if_neg (Nat.lt_irrefl k)] at e
    have hne := List.nodup_iff_getElem?_ne_getElem?.mp hnd (k + 1) (L.length - 1)
      (by omega) (by omega)
    exact hne (by rw [← e, hlast])
  · intro hle
    apply List.ext_getElem?
    intro i
    rw [List.getElem?_set, List.length_take, hmin, List.getElem?_take,
      List.getElem?_eraseIdx]
    by_cases hki : k = i
    · subst hki
      rw [if_pos rfl, if_neg (Nat.lt_irrefl k)]
      by_cases hi : k < L.length - 1
      · rw [if_pos hi]
        have : k + 1 = L.length - 1 := by omega
        rw [this, hlast]
      · rw [if_neg hi]
        exact (List.getElem?_eq_none (by omega)).symm
    · rw [if_neg hki]
      by_cases hi : i < L.length - 1
      · rw [if_pos hi, if_pos (show i < k by omega)]
      · rw [if_neg hi, if_neg (show ¬ i < k by omega)]
        exact (List.getElem?_eq_none (by omega)).symm

/-! ## C11: swap-with-last removal -/

/-- C11: in every reachable state with `n = buffer_size ≥ 1` entries `e0 .. e(n-1)` in
logical order, for every policy and every `rand() ≥ 0`, `request_buffer_remove` selects a
logical position `k < n`, returns `ek`, and leaves a logical sequence of `n - 1` entries
equal to `e0 .. e(n-2)` with position `k` overwritten by `e(n-1)` (for `k = n-1` simply
`e0 .. e(n-2)`); hence, for pairwise distinct entries, the resulting sequence is the
previous one with `ek` deleted (relative order kept) if and only if `k ≥ n - 2`. -/
theorem swap_with_last_removal (g : Globals) (h : Reachable g) (hne : g.buffer_size ≠ 0)
    (rand : Int) (hr : 0 ≤ rand) :
    ∃ (k : Nat) (req last : request_t) (g1 : Globals),
      (k : Int) < g.buffer_size ∧ select_idx rand g = Except.ok (k : Int) ∧
      (logical g).length = g.buffer_size.toNat ∧
      (logical g)[k]? = some req ∧
      (logical g)[g.buffer_size.toNat - 1]? = some last ∧
      request_buffer_remove rand g = Except.ok (req, g1) ∧
      (logical g1).length = g.buffer_size.toNat - 1 ∧
      logical g1 = ((logical g).take (g.buffer_size.toNat - 1)).set k last ∧
      (k = g.buffer_size.toNat - 1 →
        logical g1 = (logical g).take (g.buffer_size.toNat - 1)) ∧
      ((logical g).Nodup →
        (logical g1 = (logical g).eraseIdx k ↔ g.buffer_size.toNat ≤ k + 2)) := by
  obtain ⟨ins, outs, hrun⟩ := h
  have hinv := hrun.inv
  obtain ⟨n, m, hn, hm, h1, h2, h3, h4, h5⟩ := hinv.nat
  obtain ⟨req, g1, hstep⟩ := remove_returns hinv hne rand hr
  obtain ⟨-, hinv1, hsz1, -, k, last, hk, hsel, hreq, hlast, hbuf⟩ :=
    remove_inv hinv rand hr req hstep
  have hsz : g.buffer_size.toNat = n := by omega
  have hsz1n : g1.buffer_size.toNat = n - 1 := by omega
  have hlastn : (g.buffer_size - 1).toNat = n - 1 := by omega
  have hkn : k < n := by omega
  have htake := logical_eq_take hinv
  have hlen : (logical g).length = n := by
    rw [htake, List.length_take, hsz]; omega
  have hlk : (logical g)[k]? = some req := by
    rw [htake, hsz, List.getElem?_take_of_lt hkn]; exact hreq
  have hll : (logical g)[n - 1]? = some last := by
    rw [htake, hsz, List.getElem?_take_of_lt (by omega), ← hlastn]; exact hlast
  have hlog1 : logical g1 = ((logical g).take (n - 1)).set k last := by
    rw [logical_eq_take hinv1, hsz1n, hbuf, htake, hsz, List.take_take,
      Nat.min_eq_left (by omega)]
    apply List.ext_getElem?
    intro i
    simp only [List.getElem?_take, List.getElem?_set, List.length_take]
    by_cases hi : i < n - 1
    · by_cases hki : k = i
      · rw [if_pos hi, if_pos hki, if_pos hki, if_pos (by omega), if_pos (by omega)]
      · rw [if_pos hi, if_neg hki, if_neg hki, if_pos hi]
    · by_cases hki : k = i
      · rw [if_neg hi, if_pos hki, if_neg (by omega)]
      · rw [if_neg hi, if_neg hki, if_neg hi]
  rw [hsz]
  refine ⟨k, req, last, g1, hk, hsel, hlen, hlk, hll, hstep, ?_, hlog1, ?_, ?_⟩
  · rw [hlog1, List.length_set, List.length_take, hlen]
    omega
  · intro hkl
    rw [hlog1]
    apply List.set_eq_of_length_le
    rw [List.length_take, hlen]
    omega
  · intro hnd
    rw [hlog1]
    have := set_take_eq_eraseIdx_iff (logical g) k last (by omega)
      (by rw [hlen]; exact hll) hnd
    rw [hlen] at this
    exact this

/-- Witness of C11: capacity 3 under policy 0 holding `/a.html`, `/b.html`, `/c.html`;
position 0 is selected, `/a.html` is returned and `/c.html` overwrites position 0. -/
theorem swap_with_last_removal_witness :
    Reachable (state_of 3 0 [entryA, entryB, entryC] 3) ∧
      request_buffer_remove 0 (state_of 3 0 [entryA, entryB, entryC] 3) =
        Except.ok (entryA, state_of 3 0 [entryC, entryB, entryC] 2) ∧
      logical (state_of 3 0 [entryC, entryB, entryC] 2) = [entryC, entryB] ∧
      ∃ (k : Nat) (req last : request_t) (g1 : Globals),
        (k : Int) < (state_of 3 0 [entryA, entryB, entryC] 3).buffer_size ∧
        select_idx 0 (state_of 3 0 [entryA, entryB, entryC] 3) = Except.ok (k : Int) ∧
        (logical (state_of 3 0 [entryA, entryB, entryC] 3)).length =
          (state_of 3 0 [entryA, entryB, entryC] 3).buffer_size.toNat ∧
        (logical (state_of 3 0 [entryA, entryB, entryC] 3))[k]? = some req ∧
        (logical (state_of 3 0 [entryA, entryB, entryC] 3))[
          (state_of 3 0 [entryA, entryB, entryC] 3).buffer_size.toNat - 1]? = some last ∧
        request_buffer_remove 0 (state_of 3 0 [entryA, entryB, entryC] 3) =
          Except.ok (req, g1) ∧
        (logical g1).length =
          (state_of 3 0 [entryA, entryB, entryC] 3).buffer_size.toNat - 1 ∧
        logical g1 = ((logical (state_of 3 0 [entryA, entryB, entryC] 3)).take
          ((state_of 3 0 [entryA, entryB, entryC] 3).buffer_size.toNat - 1)).set k last ∧
        (k = (state_of 3 0 [entryA, entryB, entryC] 3).buffer_size.toNat - 1 →
          logical g1 = (logical (state_of 3 0 [entryA, entryB, entryC] 3)).take
            ((state_of 3 0 [entryA, entryB, entryC] 3).buffer_size.toNat - 1)) ∧
        ((logical (state_of 3 0 [entryA, entryB, entryC] 3)).Nodup →
          (logical g1 = (logical (state_of 3 0 [entryA, entryB, entryC] 3)).eraseIdx k ↔
            (state_of 3 0 [entryA, entryB, entryC] 3).buffer_size.toNat ≤ k + 2)) :=
  ⟨⟨_, _, run_ABC 0⟩, by decide, by decide,
    swap_with_last_removal _ ⟨_, _, run_ABC 0⟩ (by decide) 0 (by decide)⟩

theorem to_int32_spec (x : Int) :
    -2147483648 ≤ to_int32 x ∧ to_int32 x < 2147483648 ∧
      (to_int32 x - x) % 4294967296 = 0 ∧
      (to_int32 x = x ↔ (-2147483648 ≤ x ∧ x < 2147483648)) := by
  unfold to_int32
  omega

/-! ## C12: the stored size -/

/-- C12, counterexample: a regular readable file of `2^31` bytes is admitted, and the
`filesize` passed to `request_buffer_insert` and stored in the buffered entry is
`-2147483648`: negative, and not the length of the file. -/
theorem filesize_2GiB_stored_negative :
    request_handle 7 "GET".toList "/big".toList stat_2GiB =
        handled.enqueue 7 "./big".toList (-2147483648) ∧
      stat_2GiB "./big".toList = some ⟨0o100644, 2147483648⟩ ∧
      (request_buffer_insert 7 "./big".toList (-2147483648) ⟨10, 0⟩
        (request_buffer_init 2 1 [slot0, slot0])).map logical =
          Except.ok [new_entry 7 "./big".toList (-2147483648) ⟨10, 0⟩] ∧
      (new_entry 7 "./big".toList (-2147483648) ⟨10, 0⟩).filesize < 0 ∧
      (new_entry 7 "./big".toList (-2147483648) ⟨10, 0⟩).filesize ≠ 2147483648 :=
  ⟨by decide, by decide, by decide, by decide, by decide⟩

/-- C12 as amended: for every admitted request, `stat` succeeded on the filename and the
`filesize` passed to `request_buffer_insert`, which becomes the `filesize` field of the
new last buffered entry, is `st_size` converted to a 32-bit signed `int` (reduced modulo
`2^32` into `-2^31 .. 2^31 - 1`); it equals `st_size`, and is then non-negative, for
every `st_size` in `0 .. 2^31 - 1`, and for no `st_size` in `2^31 .. 2^63 - 1`. -/
theorem stored_filesize (fd : Int) (method uri : List Char)
    (stat : List Char → Option stat_buf) (conn_fd : Int) (filename : List Char)
    (filesize : Int)
    (hadm : request_handle fd method uri stat = handled.enqueue conn_fd filename filesize) :
    ∃ sbuf, stat filename = some sbuf ∧ filesize = to_int32 sbuf.st_size ∧
      -2147483648 ≤ filesize ∧ filesize < 2147483648 ∧
      (filesize - sbuf.st_size) % 4294967296 = 0 ∧
      (0 ≤ sbuf.st_size → sbuf.st_size < 2147483648 →
        filesize = sbuf.st_size ∧ 0 ≤ filesize) ∧
      (2147483648 ≤ sbuf.st_size → sbuf.st_size < 9223372036854775808 →
        filesize ≠ sbuf.st_size) ∧
      ∀ (g : Globals) (now : timespec), Reachable g →
        g.buffer_size ≠ g.buffer_max_size →
        ∃ g1 e, request_buffer_insert conn_fd filename filesize now g = Except.ok g1 ∧
          (logical g1).getLast? = some e ∧ e.filesize = to_int32 sbuf.st_size := by
  rcases request_handle_cases fd method uri stat with
    ⟨sbuf, -, -, hstat, -, -, -, he⟩ | ⟨-, _, _, _, _, _, he, -⟩
  · rw [he] at hadm
    injection hadm with e1 e2 e3
    subst e1 e2 e3
    obtain ⟨s1, s2, s3, s4⟩ := to_int32_spec sbuf.st_size
    refine ⟨sbuf, hstat, rfl, s1, s2, s3, ?_, ?_, ?_⟩
    · intro h0 h1
      have := s4.mpr ⟨by omega, h1⟩
      exact ⟨this, by omega⟩
    · intro h0 _ c
      have := s4.mp c
      omega
    · intro g now hreach hne
      obtain ⟨ins, outs, hrun⟩ := hreach
      have hinv := hrun.inv
      have hstep := insert_spec hinv hne fd (request_parse_uri uri).2.1
        (to_int32 sbuf.st_size) now
      refine ⟨_, new_entry fd (request_parse_uri uri).2.1 (to_int32 sbuf.st_size) now,
        hstep, ?_, rfl⟩
      rw [insert_logical hinv _ _ _ _ hstep]
      simp
  · rw [he] at hadm
    cases hadm

/-- Witness of C12 as amended: `GET /index.html` for a regular readable file of 1234
bytes is admitted with `filesize = 1234`. -/
theorem stored_filesize_witness :
    request_handle 7 "GET".toList "/index.html".toList
        (fun _ => some ⟨0o100644, 1234⟩) =
        handled.enqueue 7 "./index.html".toList 1234 ∧
      ∃ sbuf : stat_buf, (fun _ : List Char => some (⟨0o100644, 1234⟩ : stat_buf))
          "./index.html".toList = some sbuf ∧
        (1234 : Int) = to_int32 sbuf.st_size ∧
        (-2147483648 : Int) ≤ 1234 ∧ (1234 : Int) < 2147483648 ∧
        ((1234 : Int) - sbuf.st_size) % 4294967296 = 0 ∧
        (0 ≤ sbuf.st_size → sbuf.st_size < 2147483648 →
          (1234 : Int) = sbuf.st_size ∧ (0 : Int) ≤ 1234) ∧
        (2147483648 ≤ sbuf.st_size → sbuf.st_size < 9223372036854775808 →
          (1234 : Int) ≠ sbuf.st_size) ∧
        ∀ (g : Globals) (now : timespec), Reachable g →
          g.buffer_size ≠ g.buffer_max_size →
          ∃ g1 e, request_buffer_insert 7 "./index.html".toList 1234 now g =
              Except.ok g1 ∧
            (logical g1).getLast? = some e ∧ e.filesize = to_int32 sbuf.st_size :=
  ⟨by decide,
    stored_filesize 7 "GET".toList "/index.html".toList (fun _ => some ⟨0o100644, 1234⟩)
      7 "./index.html".toList 1234 (by decide)⟩

end OSProj3
